import Mathlib

/-!
Verification of the serket neural-network layer library (linear/multilinear
layers, normalization layers, reshape/crop/pad layers, dropout, and the
tree-eval dispatch).  Arrays are modelled as row-major flat lists of
rationals together with their shape, mirroring the host array library's
memory model; the floating-point square root is an uninterpreted parameter.
-/

namespace Serket

/-- A multi-dimensional index: one coordinate per axis. -/
abbrev Idx := List ℕ

/-- All valid indices of a shape, in row-major (lexicographic) order. -/
def allIdx : List ℕ → List Idx
  | [] => [[]]
  | n :: rest => (List.range n).flatMap (fun i => (allIdx rest).map (i :: ·))

/-- An index is valid for a shape when it has one coordinate per axis,
each strictly below the axis size. -/
def Valid (idx : Idx) (shape : List ℕ) : Prop :=
  List.Forall₂ (· < ·) idx shape

instance (idx : Idx) (shape : List ℕ) : Decidable (Valid idx shape) :=
  inferInstanceAs (Decidable (List.Forall₂ _ _ _))

/-- Row-major linear index of a multi-dimensional index. -/
def rowIndex : List ℕ → Idx → ℕ
  | [], _ => 0
  | _ :: _, [] => 0
  | _ :: srest, i :: irest => i * srest.prod + rowIndex srest irest

/-- An n-dimensional array: a shape together with a row-major flat data
list (the model of a `jax.Array` of rationals). -/
structure NDArray where
  shape : List ℕ
  data : List ℚ
  deriving DecidableEq, Repr

/-- Well-formedness: the flat data has exactly one entry per valid index. -/
def NDArray.wf (x : NDArray) : Prop := x.data.length = x.shape.prod

/-- Read an element at a multi-dimensional index (0 out of bounds). -/
def NDArray.get (x : NDArray) (idx : Idx) : ℚ :=
  x.data.getD (rowIndex x.shape idx) 0

/-- Build an array of a given shape from an index-to-value function. -/
def ofFn (shape : List ℕ) (f : Idx → ℚ) : NDArray :=
  ⟨shape, (allIdx shape).map f⟩

/-- `jnp.ones(shape)`: the result of `resolve_init("ones")`. -/
def onesInit (shape : List ℕ) : NDArray := ⟨shape, List.replicate shape.prod 1⟩

/-- `jnp.zeros(shape)`: the result of `resolve_init("zeros")`. -/
def zerosInit (shape : List ℕ) : NDArray := ⟨shape, List.replicate shape.prod 0⟩

/-- The fields of a constructed `GroupNorm` layer
(`serket/_src/nn/normalization.py`). -/
structure GroupNormLayer where
  in_features : ℕ
  groups : ℕ
  eps : ℚ
  weight : NDArray
  bias : NDArray
  deriving DecidableEq, Repr

/-- Embedding of `GroupNorm.__init__`: `positive_int_cb` validates that
`in_features` and `groups` are positive integers, then the constructor
raises `ValueError` when `in_features % groups != 0`, and otherwise
initializes `weight` and `bias` by calling the resolved init functions
with shape `(in_features,)`.  Init functions are abstracted as
shape-to-array functions (the `key`/`dtype` arguments carry no
information in the rational model). -/
def groupNormInit (in_features groups : ℕ) (eps : ℚ)
    (weight_init bias_init : List ℕ → NDArray) : Except String GroupNormLayer :=
  if in_features = 0 then .error "positive_int_cb: in_features"
  else if groups = 0 then .error "positive_int_cb: groups"
  else if in_features % groups ≠ 0 then .error "in_features must be divisible by groups"
  else .ok ⟨in_features, groups, eps,
            weight_init [in_features], bias_init [in_features]⟩

/-- The fields of a constructed `GeneralLinear` layer
(`serket/nn/linear.py`). -/
structure GeneralLinearLayer where
  in_features : List ℕ
  out_features : ℕ
  in_axes : List ℤ
  weight : NDArray
  bias : Option NDArray
  deriving DecidableEq, Repr

/-- Embedding of `GeneralLinear.__init__`: raises `ValueError` when
`len(in_axes) != len(in_features)`, otherwise initializes the weight with
shape `(*in_features, out_features)` and the bias with shape
`(out_features,)` (or `None` when `bias_init_func` is `None`). -/
def generalLinearInit (in_features : List ℕ) (out_features : ℕ)
    (in_axes : List ℤ) (weight_init : List ℕ → NDArray)
    (bias_init : Option (List ℕ → NDArray)) : Except String GeneralLinearLayer :=
  if in_axes.length ≠ in_features.length then
    .error "Expected in_axes and in_features to have the same length"
  else
    .ok ⟨in_features, out_features, in_axes,
         weight_init (in_features ++ [out_features]),
         bias_init.map (fun f => f [out_features])⟩

/-- Embedding of `jax.lax.collapse`: collapse dimensions `[s, e)` of the
shape into a single dimension holding their product; the row-major flat
data is unchanged. -/
def collapse (x : NDArray) (s e : ℕ) : NDArray :=
  ⟨x.shape.take s ++ ((x.shape.drop s).take (e - s)).prod :: x.shape.drop e,
   x.data⟩

/-- Embedding of `flatten` (`serket/_src/nn/reshape.py`): normalize the
(possibly negative) `start_dim`/`end_dim` and call `jax.lax.collapse`
with an inclusive end. -/
def flatten (x : NDArray) (start_dim end_dim : ℤ) : NDArray :=
  let nd : ℤ := x.shape.length
  let s := start_dim + (if 0 ≤ start_dim then 0 else nd)
  let e := end_dim + 1 + (if 0 ≤ end_dim then 0 else nd)
  collapse x s.toNat e.toNat

/-- Embedding of `jnp.reshape` on its non-error domain: same row-major
data under the new shape (every use below has a size-compatible shape). -/
def reshape (x : NDArray) (s : List ℕ) : NDArray := ⟨s, x.data⟩

/-- Embedding of `unflatten` (`serket/_src/nn/reshape.py`):
`jnp.reshape` to `[*in_shape[:dim], *shape, *in_shape[dim+1:]]`. -/
def unflatten (x : NDArray) (dim : ℕ) (shape : List ℕ) : NDArray :=
  reshape x (x.shape.take dim ++ shape ++ x.shape.drop (dim + 1))

/-- Embedding of `jax.lax.dynamic_slice`: the start indices are clamped so
that the slice stays within bounds, and the result has shape `sizes`. -/
def dynamicSlice (x : NDArray) (starts sizes : List ℕ) : NDArray :=
  let adj := List.zipWith min starts (List.zipWith (fun sh sz => sh - sz) x.shape sizes)
  ofFn sizes (fun idx => x.get (List.zipWith (fun a b => a + b) adj idx))

/-- Embedding of `center_crop_nd` (`serket/_src/nn/reshape.py`): crop to
`sizes` at the center, starting at `max(shape // 2 - size // 2, 0)` on
each axis. -/
def centerCropNd (array : NDArray) (sizes : List ℕ) : NDArray :=
  let starts := List.zipWith
    (fun (shape size : ℕ) => (max ((shape : ℤ) / 2 - (size : ℤ) / 2) 0).toNat)
    array.shape sizes
  dynamicSlice array starts sizes

/-- `x[c]`: index an array along its leading axis. -/
def index0 (x : NDArray) (c : ℕ) : NDArray :=
  ofFn x.shape.tail (fun idx => x.get (c :: idx))

/-- Embedding of `jax.vmap` over the leading axis, for functions whose
output shape is uniform across slices (true of every use below). -/
def vmap0 (f : NDArray → NDArray) (x : NDArray) : NDArray :=
  ofFn (x.shape.headD 0 :: (f (index0 x 0)).shape)
    (fun idx => (f (index0 x (idx.headD 0))).get idx.tail)

/-- Embedding of `CenterCropND.__call__`: vmap `center_crop_nd` with the
layer's `size` over the channel axis. -/
def centerCropCall (size : List ℕ) (x : NDArray) : NDArray :=
  vmap0 (fun ch => centerCropNd ch size) x

/-- Locate the source index of a padded-array index: `some j` when the
index lies in the interior copy of the original array, `none` when it
falls in the padded border. -/
def unpadIdx : List (ℕ × ℕ) → List ℕ → Idx → Option Idx
  | [], [], [] => some []
  | (l, _) :: pw, s :: sh, i :: idx =>
      if l ≤ i ∧ i < l + s then (unpadIdx pw sh idx).map (fun j => (i - l) :: j)
      else none
  | _, _, _ => none

/-- Embedding of `jnp.pad` in constant mode: axis `k` grows by
`pw[k].1 + pw[k].2`, interior elements are copied, border elements are
the constant `v`. -/
def jnpPad (x : NDArray) (pw : List (ℕ × ℕ)) (v : ℚ) : NDArray :=
  ofFn (List.zipWith (fun s p => p.1 + s + p.2) x.shape pw)
    (fun idx =>
      match unpadIdx pw x.shape idx with
      | some j => x.get j
      | none => v)

/-- Embedding of the old `PadND.__call__` (`serket/nn/padding.py`): pad
the whole array with `((0, 0), *padding)`, so the channel axis is not
padded. -/
def oldPadCall (padding : List (ℕ × ℕ)) (v : ℚ) (x : NDArray) : NDArray :=
  jnpPad x ((0, 0) :: padding) v

/-- Embedding of the new `PadND.__call__` (`serket/_src/nn/reshape.py`):
vmap `jnp.pad` with the spatial padding over the channel axis
(`value` passes through `jax.lax.stop_gradient`, the identity on values). -/
def newPadCall (padding : List (ℕ × ℕ)) (v : ℚ) (x : NDArray) : NDArray :=
  vmap0 (fun ch => jnpPad ch padding v) x

/-- Elementwise map over an array (model of jnp unary ufuncs / scalar
arithmetic broadcast over one array). -/
def emap (f : ℚ → ℚ) (x : NDArray) : NDArray := ⟨x.shape, x.data.map f⟩

/-- NumPy-style broadcast result shape of two shapes (right-aligned,
size-1 axes stretched); total embedding of the non-error domain. -/
def bshape (s t : List ℕ) : List ℕ :=
  let n := max s.length t.length
  List.zipWith max (List.replicate (n - s.length) 1 ++ s)
    (List.replicate (n - t.length) 1 ++ t)

/-- Read an array at a broadcast index of rank `rank`: align right and
collapse coordinates of size-1 axes to 0. -/
def bcastGet (x : NDArray) (rank : ℕ) (idx : Idx) : ℚ :=
  x.get (List.zipWith (fun n i => if n = 1 then 0 else i) x.shape
    (idx.drop (rank - x.shape.length)))

/-- Elementwise binary operation with NumPy broadcasting (model of jnp
binary ufuncs on the non-error domain). -/
def bop (f : ℚ → ℚ → ℚ) (x y : NDArray) : NDArray :=
  let s := bshape x.shape y.shape
  ofFn s (fun idx => f (bcastGet x s.length idx) (bcastGet y s.length idx))

/-- Embedding of `jnp.squeeze`: remove all axes of size 1; the row-major
data is unchanged. -/
def squeeze (x : NDArray) : NDArray := ⟨x.shape.filter (fun n => n != 1), x.data⟩

/-- The `broadcast_shape` of `_batchnorm_impl`: all ones except
`x.shape[axis]` at position `axis`. -/
def broadcastShapeOf (shape : List ℕ) (axis : ℕ) : List ℕ :=
  (List.replicate shape.length 1).set axis (shape.getD axis 0)

/-- The index `(0, ..., 0, j, 0, ..., 0)` with `j` at position `axis`:
the only kind of valid index of a `broadcastShapeOf` array. -/
def eIdx (ndim axis j : ℕ) : Idx := (List.replicate ndim 0).set axis j

/-- Embedding of `jnp.mean(x, axis=axes, keepdims=True)` for
`axes = [0..ndim) \ {axis}` (the `train_step` reduction): sum the
entries whose coordinate at `axis` matches, divided by the number of
reduced elements. -/
def meanAllBut (x : NDArray) (axis : ℕ) : NDArray :=
  ofFn (broadcastShapeOf x.shape axis)
    (fun idx =>
      (((allIdx x.shape).filter
          (fun v => v.getD axis 0 == idx.getD axis 0)).map x.get).sum /
        ((x.shape.eraseIdx axis).prod : ℚ))

/-- The running statistics of `BatchNorm` (`BatchNormState`). -/
structure BatchNormState where
  running_mean : NDArray
  running_var : NDArray
  deriving DecidableEq, Repr

/-- Embedding of `eval_step` in `_batchnorm_impl`: normalize with the
running statistics (reshaped for broadcast), return the state unchanged.
`jax.lax.rsqrt` is the reciprocal of the uninterpreted `sqrt`. -/
def evalStep (sqrt : ℚ → ℚ) (eps : ℚ) (axis : ℕ) (x : NDArray)
    (state : BatchNormState) : NDArray × BatchNormState :=
  let bsh := broadcastShapeOf x.shape axis
  let run_mean := reshape state.running_mean bsh
  let run_var := reshape state.running_var bsh
  let output := bop (fun a b => a * b) (bop (fun a b => a - b) x run_mean)
    (emap (fun a => 1 / sqrt a) (emap (fun a => a + eps) run_var))
  (output, state)

/-- Embedding of `train_step` in `_batchnorm_impl` with
`axis_name = None` (the `jax.lax.pmean` branches are skipped): compute
batch statistics over all axes except `axis` (keepdims), normalize, and
update the running statistics with momentum. -/
def trainStep (sqrt : ℚ → ℚ) (momentum eps : ℚ) (axis : ℕ) (x : NDArray)
    (state : BatchNormState) : NDArray × BatchNormState :=
  let batch_mean := meanAllBut x axis
  let batch_var := bop (fun a b => a - b)
    (meanAllBut (emap (fun a => a * a) x) axis)
    (bop (fun a b => a * b) batch_mean batch_mean)
  let output := bop (fun a b => a / b) (bop (fun a b => a - b) x batch_mean)
    (emap sqrt (emap (fun a => a + eps) batch_var))
  let run_mean := bop (fun a b => a + b)
    (emap (fun a => momentum * a) state.running_mean)
    (emap (fun a => (1 - momentum) * a) (squeeze batch_mean))
  let run_var := bop (fun a b => a + b)
    (emap (fun a => momentum * a) state.running_var)
    (emap (fun a => (1 - momentum) * a) (squeeze batch_var))
  (output, ⟨run_mean, run_var⟩)

/-- Embedding of `_batchnorm_impl` (`serket/_src/nn/normalization.py`)
with `axis_name = None`: select the eval or train step, pass the state
through `jax.lax.stop_gradient` (identity on values), then apply the
optional `gamma` scale and `beta` shift reshaped to the broadcast
shape. -/
def batchnormImpl (sqrt : ℚ → ℚ) (momentum eps : ℚ)
    (gamma beta : Option NDArray) (evalution : Bool) (axis : ℕ)
    (x : NDArray) (state : BatchNormState) : NDArray × BatchNormState :=
  let bsh := broadcastShapeOf x.shape axis
  let res := if evalution then evalStep sqrt eps axis x state
             else trainStep sqrt momentum eps axis x state
  let output := match gamma with
    | some g => bop (fun a b => a * b) res.1 (reshape g bsh)
    | none => res.1
  let output2 := match beta with
    | some b => bop (fun a b => a + b) output (reshape b bsh)
    | none => output
  (output2, res.2)

/-- The fields of a constructed `BatchNorm` layer. -/
structure BatchNormLayer where
  in_features : ℕ
  momentum : ℚ
  eps : ℚ
  weight : Option NDArray
  bias : Option NDArray
  axis : ℕ
  axis_name : Option String
  deriving DecidableEq, Repr

/-- The fields of a constructed `EvalNorm` layer. -/
structure EvalNormLayer where
  in_features : ℕ
  momentum : ℚ
  eps : ℚ
  weight : Option NDArray
  bias : Option NDArray
  axis : ℕ
  axis_name : Option String
  deriving DecidableEq, Repr

/-- Embedding of the batched branch of `BatchNorm.__call__` (the
`custom_vmap` rule): `_batchnorm_impl` with `evalution=False` and the
layer's hyperparameters. -/
def batchNormCall (sqrt : ℚ → ℚ) (bn : BatchNormLayer) (x : NDArray)
    (state : BatchNormState) : NDArray × BatchNormState :=
  batchnormImpl sqrt bn.momentum bn.eps bn.weight bn.bias false bn.axis x state

/-- Embedding of the batched branch of `EvalNorm.__call__` (the
`custom_vmap` rule): `_batchnorm_impl` with `evalution=True` and
`momentum=0.0`. -/
def evalNormCall (sqrt : ℚ → ℚ) (en : EvalNormLayer) (x : NDArray)
    (state : BatchNormState) : NDArray × BatchNormState :=
  batchnormImpl sqrt 0 en.eps en.weight en.bias true en.axis x state

/-- Embedding of `EvalNorm.__init__`: the weight and bias are produced by
calling the resolved init functions with shape `(in_features,)`
(callable inits are returned unchanged by `resolve_init`, so a constant
function yields its constant). -/
def evalNormInit (in_features : ℕ) (momentum eps : ℚ)
    (weight_init bias_init : List ℕ → Option NDArray) (axis : ℕ)
    (axis_name : Option String) : EvalNormLayer :=
  ⟨in_features, momentum, eps, weight_init [in_features],
   bias_init [in_features], axis, axis_name⟩

/-- Embedding of the `tree_eval.def_eval(BatchNorm)` rule: build an
`EvalNorm` copying `in_features`, `momentum`, `eps`, `axis`, `axis_name`
and passing `lambda *_: batchnorm.weight` / `lambda *_: batchnorm.bias`
as init functions. -/
def batchNormEvalRule (bn : BatchNormLayer) : EvalNormLayer :=
  evalNormInit bn.in_features bn.momentum bn.eps
    (fun _ => bn.weight) (fun _ => bn.bias) bn.axis bn.axis_name

/-- The pytree leaf types relevant to `tree_eval` dispatch: the layers
with registered eval rules in the sources, plus `Identity`, `EvalNorm`
and an opaque stand-in for any type with no registered rule. -/
inductive Layer where
  | randomCrop1D (size : List ℕ)
  | randomCrop2D (size : List ℕ)
  | randomCrop3D (size : List ℕ)
  | randomZoom1D (length_factor : ℚ × ℚ)
  | randomZoom2D (height_factor width_factor : ℚ × ℚ)
  | randomZoom3D (height_factor width_factor depth_factor : ℚ × ℚ)
  | batchNorm (bn : BatchNormLayer)
  | evalNorm (en : EvalNormLayer)
  | identity
  | other (tag : ℕ)
  deriving DecidableEq, Repr

/-- Embedding of `tree_eval.eval_dispatcher`: the `def_eval`
registrations of `serket/_src/nn/reshape.py` (RandomCrop1/2/3D and
RandomZoom1/2/3D map to `Identity()`) and
`serket/_src/nn/normalization.py` (BatchNorm maps to an `EvalNorm`);
the default rule is the identity function. -/
def evalDispatch : Layer → Layer
  | .randomCrop1D _ => .identity
  | .randomCrop2D _ => .identity
  | .randomCrop3D _ => .identity
  | .randomZoom1D _ => .identity
  | .randomZoom2D _ _ => .identity
  | .randomZoom3D _ _ _ => .identity
  | .batchNorm bn => .evalNorm (batchNormEvalRule bn)
  | l => l

/-- A pytree whose leaves are layers. -/
inductive PyTree where
  | leaf (l : Layer)
  | node (children : List PyTree)

/-- Generic leaf-wise map over a pytree (the action of `jax.tree_map`
with an `is_leaf` that stops at layer leaves). -/
def mapLeaves (f : Layer → Layer) : PyTree → PyTree
  | .leaf l => .leaf (f l)
  | .node ts => .node (ts.attach.map (fun t => mapLeaves f t.1))
decreasing_by
  simp_wf
  have := List.sizeOf_lt_of_mem t.2
  omega

/-- Embedding of `tree_eval` (`serket/nn/custom_transform.py`):
`jax.tree_map(tree_eval.eval_dispatcher, tree, is_leaf=...)`. -/
def treeEval (t : PyTree) : PyTree := mapLeaves evalDispatch t

/-- A PRNG key (opaque in the model). -/
abbrev Key := ℕ

/-- Embedding of `Dropout.__call__` (`serket/nn/dropout.py`):
`jnp.where(bernoulli(key, 1 - p, x.shape), x / (1 - p), 0)`, with the
`jax.random.bernoulli` primitive abstracted as a deterministic
key-indexed oracle returning a 0/1 mask. -/
def dropoutCall (bern : Key → ℚ → List ℕ → NDArray) (p : ℚ) (x : NDArray)
    (key : Key) : NDArray :=
  let mask := bern key (1 - p) x.shape
  ofFn x.shape (fun idx => if mask.get idx ≠ 0 then x.get idx / (1 - p) else 0)

/-- Embedding of `random_crop_nd` (`serket/_src/nn/reshape.py`): draw one
start index per axis with `jr.randint(key, (), 0, x.shape[i] - s)` (the
`jax.random.randint` primitive abstracted as a deterministic key-indexed
oracle), then `jax.lax.dynamic_slice`. -/
def randomCropNd (randint : Key → ℕ → ℕ → ℕ) (x : NDArray)
    (crop_size : List ℕ) (key : Key) : NDArray :=
  let start := crop_size.enum.map
    (fun p => randint key 0 (x.shape.getD p.1 0 - p.2))
  dynamicSlice x start crop_size

/-- Embedding of `RandomCropND.__call__`: crop size
`[x.shape[0], *self.size]` with the passed key. -/
def randomCropCall (randint : Key → ℕ → ℕ → ℕ) (size : List ℕ)
    (x : NDArray) (key : Key) : NDArray :=
  randomCropNd randint x (x.shape.headD 0 :: size) key

/-- Python `int(...)` on an exact rational: truncation toward zero. -/
def pyInt (q : ℚ) : ℤ := if 0 ≤ q then Int.floor q else Int.ceil q

/-- Embedding of `random_zoom_along_axis` (`serket/_src/nn/reshape.py`),
with `jax.image.resize(method="linear")` abstracted as a deterministic
shape-indexed function `resize`: `factor = 0` returns the input;
`factor < 0` resizes axis `axis` to `int(axis_size * (1 + factor))` and
pads it back symmetrically (`left = (axis_size - resized) // 2`,
`right = axis_size - resized - left`); `factor > 0` resizes the axis up
and takes a `random_crop_nd` back to the original shape with the same
key. `astype` is the identity on exact rationals. -/
def randomZoomAlongAxis (resize : List ℕ → NDArray → NDArray)
    (randint : Key → ℕ → ℕ → ℕ) (key : Key) (x : NDArray) (factor : ℚ)
    (axis : ℕ) : NDArray :=
  if factor = 0 then x
  else
    let axis_size := x.shape.getD axis 0
    let resized_axis_size : ℤ := pyInt ((axis_size : ℚ) * (1 + factor))
    let resized_shape := x.shape.set axis resized_axis_size.toNat
    if factor < 0 then
      let y := resize resized_shape x
      let left := Int.fdiv ((axis_size : ℤ) - resized_axis_size) 2
      let right := (axis_size : ℤ) - resized_axis_size - left
      jnpPad y ((List.replicate x.shape.length ((0 : ℕ), (0 : ℕ))).set axis
        (left.toNat, right.toNat)) 0
    else
      let y := resize resized_shape x
      randomCropNd randint y x.shape key

/-- Embedding of `RandomZoom1D.__call__` (`serket/_src/nn/reshape.py`):
`k1, k2 = jr.split(key, 2)`, a factor drawn uniformly from
`length_factor` at `k1` (`jax.random.split` and `jax.random.uniform`
abstracted as deterministic key-indexed oracles,
`jax.lax.stop_gradient` the identity on values), then one zoom along
axis 1 keyed by `k2`. -/
def randomZoom1Call (split : Key → ℕ → List Key)
    (uniform : Key → ℚ → ℚ → ℚ) (resize : List ℕ → NDArray → NDArray)
    (randint : Key → ℕ → ℕ → ℕ) (length_factor : ℚ × ℚ) (x : NDArray)
    (key : Key) : NDArray :=
  let ks := split key 2
  let factor := uniform (ks.getD 0 0) length_factor.1 length_factor.2
  randomZoomAlongAxis resize randint (ks.getD 1 0) x factor 1

/-- Embedding of `RandomZoom2D.__call__`: `k1..k4 = jr.split(key, 4)`,
factors drawn at `k1`/`k2`, zooms along axes 1 and 2 keyed by
`k3`/`k4`. -/
def randomZoom2Call (split : Key → ℕ → List Key)
    (uniform : Key → ℚ → ℚ → ℚ) (resize : List ℕ → NDArray → NDArray)
    (randint : Key → ℕ → ℕ → ℕ) (height_factor width_factor : ℚ × ℚ)
    (x : NDArray) (key : Key) : NDArray :=
  let ks := split key 4
  let f1 := uniform (ks.getD 0 0) height_factor.1 height_factor.2
  let x1 := randomZoomAlongAxis resize randint (ks.getD 2 0) x f1 1
  let f2 := uniform (ks.getD 1 0) width_factor.1 width_factor.2
  randomZoomAlongAxis resize randint (ks.getD 3 0) x1 f2 2

/-- Embedding of `RandomZoom3D.__call__`: `k1..k6 = jr.split(key, 6)`,
factors drawn at `k1`/`k2`/`k5`, zooms along axes 1, 2 and 3 keyed by
`k3`/`k4`/`k6`. -/
def randomZoom3Call (split : Key → ℕ → List Key)
    (uniform : Key → ℚ → ℚ → ℚ) (resize : List ℕ → NDArray → NDArray)
    (randint : Key → ℕ → ℕ → ℕ)
    (height_factor width_factor depth_factor : ℚ × ℚ) (x : NDArray)
    (key : Key) : NDArray :=
  let ks := split key 6
  let f1 := uniform (ks.getD 0 0) height_factor.1 height_factor.2
  let x1 := randomZoomAlongAxis resize randint (ks.getD 2 0) x f1 1
  let f2 := uniform (ks.getD 1 0) width_factor.1 width_factor.2
  let x2 := randomZoomAlongAxis resize randint (ks.getD 3 0) x1 f2 2
  let f3 := uniform (ks.getD 4 0) depth_factor.1 depth_factor.2
  randomZoomAlongAxis resize randint (ks.getD 5 0) x2 f3 3

/-- A concrete `BatchNorm` layer used to witness the batch-norm claim. -/
def bnExample : BatchNormLayer :=
  ⟨2, 1/2, 0, some ⟨[2], [10, 100]⟩, some ⟨[2], [5, 6]⟩, 1, none⟩

/-- A concrete batched input used to witness the batch-norm claim. -/
def xExample : NDArray := ⟨[2, 2], [1, 2, 3, 4]⟩

/-- A concrete state used to witness the batch-norm claim. -/
def stExample : BatchNormState := ⟨⟨[2], [0, 0]⟩, ⟨[2], [1, 1]⟩⟩

/-- The per-feature batch mean of `xExample`. -/
def bmeanExample (j : ℕ) : ℚ :=
  (((allIdx xExample.shape).filter
    (fun v => v.getD bnExample.axis 0 == j)).map xExample.get).sum /
    ((xExample.shape.eraseIdx bnExample.axis).prod : ℚ)

/-- The per-feature batch variance of `xExample`. -/
def bvarExample (j : ℕ) : ℚ :=
  (((allIdx xExample.shape).filter
    (fun v => v.getD bnExample.axis 0 == j)).map
      (fun v => xExample.get v * xExample.get v)).sum /
    ((xExample.shape.eraseIdx bnExample.axis).prod : ℚ) -
    bmeanExample j * bmeanExample j

/-- The subscript alphabet of `_multilinear_einsum_string`
(`serket/nn/linear.py`). -/
def alpha : List Char :=
  "abcdefghijklmnopqrstuvwxyzABCDEFGHIJKLMNOPQRSTUVWXYZ".toList

/-- Embedding of `_multilinear_einsum_string` at the character-list
level: raises `ValueError` unless `1 <= degree <= len(alpha) - 1`, and
otherwise joins one `...x` subscript per input with commas, then appends
`,<first degree+1 letters>-><...><letter degree>`. -/
def multilinearEinsumChars (degree : ℕ) : Option (List Char) :=
  if 1 ≤ degree ∧ degree ≤ alpha.length - 1 then
    some (List.intercalate [',']
        ((alpha.take degree).map (fun c => ['.', '.', '.', c])) ++
      [','] ++ alpha.take (degree + 1) ++ ['-', '>', '.', '.', '.'] ++
      [alpha.getD degree ' '])
  else none

/-- Split an einsum string at the `->` arrow. -/
def splitArrow : List Char → Option (List Char × List Char)
  | [] => none
  | '-' :: '>' :: rest => some ([], rest)
  | c :: rest => (splitArrow rest).map (fun pr => (c :: pr.1, pr.2))

/-- Split the operand part of an einsum string at commas. -/
def splitCommas : List Char → List (List Char)
  | [] => [[]]
  | ',' :: rest => [] :: splitCommas rest
  | c :: rest =>
    match splitCommas rest with
    | [] => [[c]]
    | q :: qs => (c :: q) :: qs

/-- Parse one einsum operand: a leading `...` marks broadcast (batch)
axes, the remaining characters are its subscript labels. -/
def parseOperand : List Char → Bool × List Char
  | '.' :: '.' :: '.' :: rest => (true, rest)
  | cs => (false, cs)

/-- A parsed einsum specification: per-operand subscripts and the output
subscript, each with an ellipsis flag. -/
structure EinSpec where
  inputs : List (Bool × List Char)
  output : Bool × List Char
  deriving DecidableEq, Repr

/-- Parse a full einsum subscript string. -/
def parseEinsum (s : List Char) : Option EinSpec :=
  (splitArrow s).map (fun pr =>
    ⟨(splitCommas pr.1).map parseOperand, parseOperand pr.2⟩)

/-- Look up the axis size bound to a subscript label. -/
def lookupEnv (env : List (Char × ℕ)) (c : Char) : ℕ :=
  ((env.find? (fun pr => pr.1 == c)).map Prod.snd).getD 0

/-- The label-subscripted (trailing) axis sizes of an operand. -/
def operandLabelDims (ell : Bool) (ls : List Char) (shape : List ℕ) :
    List ℕ :=
  if ell then shape.drop (shape.length - ls.length) else shape

/-- The batch (ellipsis) axis sizes of an operand. -/
def operandBatch (ls : List Char) (shape : List ℕ) : List ℕ :=
  shape.take (shape.length - ls.length)

/-- Embedding of `jnp.einsum` semantics on its non-error domain (labels
consistently bound, all ellipsis operands sharing one batch shape): the
output at a batch index and output-label assignment is the sum over all
assignments of the contracted labels (those absent from the output) of
the product of the operands at their subscripted positions. -/
def einsumEval (spec : EinSpec) (ops : List NDArray) : NDArray :=
  let pairs := spec.inputs.zip ops
  let batch := (pairs.filterMap (fun pr =>
    if pr.1.1 then some (operandBatch pr.1.2 pr.2.shape) else none)).headD []
  let env := pairs.flatMap (fun pr =>
    pr.1.2.zip (operandLabelDims pr.1.1 pr.1.2 pr.2.shape))
  let oLs := spec.output.2
  let sumLabels := (pairs.flatMap (fun pr => pr.1.2)).foldl
    (fun acc c => if acc.contains c || oLs.contains c then acc
                  else acc ++ [c]) []
  let outShape := (if spec.output.1 then batch else []) ++
    oLs.map (lookupEnv env)
  ofFn outShape (fun idx =>
    let bIdx := if spec.output.1 then idx.take batch.length else []
    let oIdx := if spec.output.1 then idx.drop batch.length else idx
    ((allIdx (sumLabels.map (lookupEnv env))).map (fun sIdx =>
      (pairs.map (fun pr =>
        pr.2.get ((if pr.1.1 then bIdx else []) ++
          pr.1.2.map (lookupEnv (oLs.zip oIdx ++ sumLabels.zip sIdx))))).prod)).sum)

/-- Embedding of `Multilinear.__call__` (`serket/nn/linear.py`):
generate the einsum string for `len(self.in_features)`, contract the
inputs with the weight via `jnp.einsum`, and add the bias when present.
`none` models the `ValueError` raised for an out-of-range degree. -/
def multilinearCall (in_features : List ℕ) (weight : NDArray)
    (bias : Option NDArray) (xs : List NDArray) : Option NDArray :=
  match multilinearEinsumChars in_features.length with
  | none => none
  | some s =>
    match parseEinsum s with
    | none => none
    | some spec =>
      let y := einsumEval spec (xs ++ [weight])
      match bias with
      | none => some y
      | some b => some (bop (fun a b => a + b) y b)

/-- The parsed form of the degree-`d` multilinear einsum string: one
single-letter ellipsis operand per input, the weight operand with the
first `d + 1` letters, and an ellipsis output with letter `d`. -/
def mkSpec (d : ℕ) : EinSpec :=
  ⟨(alpha.take d).map (fun c => (true, [c])) ++ [(false, alpha.take (d + 1))],
   (true, [alpha.getD d ' '])⟩

theorem length_range_flatMap {β : Type} (g : ℕ → List β) (L : ℕ)
    (hg : ∀ a, (g a).length = L) (k : ℕ) :
    ((List.range k).flatMap g).length = k * L := by
  induction k with
  | zero => simp
  | succ j ihj =>
    rw [List.range_succ, List.flatMap_append, List.length_append, ihj]
    simp [hg, Nat.succ_mul]

theorem length_allIdx (s : List ℕ) : (allIdx s).length = s.prod := by
  induction s with
  | nil => rfl
  | cons n rest ih =>
    show ((List.range n).flatMap _).length = _
    rw [length_range_flatMap _ rest.prod (fun a => by rw [List.length_map, ih]) n]
    rfl

theorem mem_allIdx {idx : Idx} {s : List ℕ} : idx ∈ allIdx s ↔ Valid idx s := by
  induction s generalizing idx with
  | nil =>
    simp only [allIdx, List.mem_singleton]
    constructor
    · rintro rfl; exact List.Forall₂.nil
    · intro h; cases h; rfl
  | cons n rest ih =>
    simp only [allIdx, List.mem_flatMap, List.mem_map, List.mem_range]
    constructor
    · rintro ⟨i, hi, j, hj, rfl⟩
      exact List.Forall₂.cons hi (ih.mp hj)
    · intro h
      cases h with
      | cons h1 h2 => exact ⟨_, h1, _, ih.mpr h2, rfl⟩

theorem flatMap_getElem? {β : Type} (g : ℕ → List β) (L n i r : ℕ)
    (hg : ∀ a, (g a).length = L) (hi : i < n) (hr : r < L) :
    ((List.range n).flatMap g)[i * L + r]? = (g i)[r]? := by
  have hlen : ∀ k, ((List.range k).flatMap g).length = k * L :=
    length_range_flatMap g L hg
  induction n with
  | zero => omega
  | succ m ih =>
    rw [List.range_succ, List.flatMap_append]
    rcases Nat.lt_or_ge i m with hlt | hge
    · rw [List.getElem?_append_left]
      · exact ih hlt
      · rw [hlen]
        calc i * L + r < i * L + L := by omega
          _ = (i + 1) * L := by ring
          _ ≤ m * L := Nat.mul_le_mul_right L (by omega)
    · have hieq : i = m := by omega
      subst hieq
      rw [List.getElem?_append_right (by rw [hlen]; omega)]
      simp [hlen, Nat.mul_comm]

theorem allIdx_getElem? : ∀ {s : List ℕ} {idx : Idx}, Valid idx s →
    (allIdx s)[rowIndex s idx]? = some idx := by
  intro s
  induction s with
  | nil =>
    intro idx h
    cases h
    rfl
  | cons n rest ih =>
    intro idx h
    cases idx with
    | nil => exact absurd h (by intro hh; cases hh)
    | cons i irest =>
      cases h with
      | cons h1 h2 =>
        have hsub := ih h2
        have hr : rowIndex rest irest < rest.prod := by
          have hlt : rowIndex rest irest < (allIdx rest).length := by
            rcases List.getElem?_eq_some.mp hsub with ⟨hl, _⟩
            exact hl
          rwa [length_allIdx] at hlt
        show ((List.range n).flatMap (fun i => (allIdx rest).map (i :: ·)))[i * rest.prod + rowIndex rest irest]? = _
        rw [flatMap_getElem? _ rest.prod n i (rowIndex rest irest)
              (fun a => by simp [length_allIdx]) h1 hr]
        rw [List.getElem?_map, hsub]
        rfl

theorem rowIndex_lt {idx : Idx} {s : List ℕ} (h : Valid idx s) :
    rowIndex s idx < s.prod := by
  have hsub := allIdx_getElem? h
  have hlt : rowIndex s idx < (allIdx s).length := by
    rcases List.getElem?_eq_some.mp hsub with ⟨hl, _⟩
    exact hl
  rwa [length_allIdx] at hlt

theorem ofFn_shape (s : List ℕ) (f : Idx → ℚ) : (ofFn s f).shape = s := rfl

theorem ofFn_wf (s : List ℕ) (f : Idx → ℚ) : (ofFn s f).wf := by
  simp [ofFn, NDArray.wf, length_allIdx]

theorem ofFn_get {s : List ℕ} {f : Idx → ℚ} {idx : Idx} (h : Valid idx s) :
    (ofFn s f).get idx = f idx := by
  unfold ofFn NDArray.get
  rw [List.getD_eq_getElem?_getD, List.getElem?_map]
  show (Option.map f (allIdx s)[rowIndex s idx]?).getD 0 = f idx
  rw [allIdx_getElem? h]
  rfl

theorem ofFn_ext {s t : List ℕ} {f g : Idx → ℚ} (hs : s = t)
    (h : ∀ idx, Valid idx s → f idx = g idx) : ofFn s f = ofFn t g := by
  subst hs
  unfold ofFn
  congr 1
  exact List.map_congr_left (fun idx hmem => h idx (mem_allIdx.mp hmem))

/-- C3: for positive `in_features` and `groups` (and any init functions
honoring their shape argument), the `GroupNorm` constructor raises
`ValueError` if and only if `in_features` is not divisible by `groups`,
and otherwise produces `weight` and `bias` of shape `(in_features,)`. -/
theorem groupNorm_init_validation (f g : ℕ) (eps : ℚ)
    (wi bi : List ℕ → NDArray) (hf : 0 < f) (hg : 0 < g)
    (hwi : ∀ s, (wi s).shape = s) (hbi : ∀ s, (bi s).shape = s) :
    ((∃ e, groupNormInit f g eps wi bi = .error e) ↔ f % g ≠ 0) ∧
    ∀ layer, groupNormInit f g eps wi bi = .ok layer →
      layer.weight.shape = [f] ∧ layer.bias.shape = [f] := by
  unfold groupNormInit
  rw [if_neg (by omega), if_neg (by omega)]
  by_cases hdvd : f % g ≠ 0
  · rw [if_pos hdvd]
    refine ⟨⟨fun _ => hdvd, fun _ => ⟨_, rfl⟩⟩, ?_⟩
    intro layer h
    cases h
  · rw [if_neg hdvd]
    refine ⟨⟨?_, fun h => absurd h hdvd⟩, ?_⟩
    · rintro ⟨e, h⟩
      cases h
    · intro layer h
      cases h
      exact ⟨hwi [f], hbi [f]⟩

/-- Witness for C3 at `in_features = 6`, `groups = 3`. -/
theorem groupNorm_init_validation_witness :
    ((∃ e, groupNormInit 6 3 0 onesInit zerosInit = .error e) ↔ 6 % 3 ≠ 0) ∧
    ∀ layer, groupNormInit 6 3 0 onesInit zerosInit = .ok layer →
      layer.weight.shape = [6] ∧ layer.bias.shape = [6] :=
  groupNorm_init_validation 6 3 0 onesInit zerosInit (by decide) (by decide)
    (fun _ => rfl) (fun _ => rfl)

/-- C6: for any `in_features` and `in_axes` tuples (and any init
functions honoring their shape argument), the `GeneralLinear`
constructor raises `ValueError` if and only if
`len(in_axes) != len(in_features)`, and otherwise produces a weight of
shape `(*in_features, out_features)`. -/
theorem generalLinear_init_validation (fs : List ℕ) (o : ℕ) (axs : List ℤ)
    (wi : List ℕ → NDArray) (bi : Option (List ℕ → NDArray))
    (hwi : ∀ s, (wi s).shape = s) :
    ((∃ e, generalLinearInit fs o axs wi bi = .error e) ↔
      axs.length ≠ fs.length) ∧
    ∀ layer, generalLinearInit fs o axs wi bi = .ok layer →
      layer.weight.shape = fs ++ [o] := by
  unfold generalLinearInit
  by_cases hlen : axs.length ≠ fs.length
  · rw [if_pos hlen]
    refine ⟨⟨fun _ => hlen, fun _ => ⟨_, rfl⟩⟩, ?_⟩
    intro layer h
    cases h
  · rw [if_neg hlen]
    refine ⟨⟨?_, fun h => absurd h hlen⟩, ?_⟩
    · rintro ⟨e, h⟩
      cases h
    · intro layer h
      cases h
      exact hwi (fs ++ [o])

/-- Witness for C6 at `in_features = (2, 3)`, `in_axes = (0, 1)`,
`out_features = 5`. -/
theorem generalLinear_init_validation_witness :
    ((∃ e, generalLinearInit [2, 3] 5 [0, 1] onesInit (some zerosInit) = .error e) ↔
      ([0, 1] : List ℤ).length ≠ ([2, 3] : List ℕ).length) ∧
    ∀ layer, generalLinearInit [2, 3] 5 [0, 1] onesInit (some zerosInit) = .ok layer →
      layer.weight.shape = [2, 3] ++ [5] :=
  generalLinear_init_validation [2, 3] 5 [0, 1] onesInit (some zerosInit)
    (fun _ => rfl)

/-- C8: an `EvalNorm` call returns the state it was given unchanged:
the returned `running_mean` and `running_var` equal the input ones. -/
theorem evalNorm_state_unchanged (sqrt : ℚ → ℚ) (en : EvalNormLayer)
    (x : NDArray) (state : BatchNormState) :
    (evalNormCall sqrt en x state).2.running_mean = state.running_mean ∧
    (evalNormCall sqrt en x state).2.running_var = state.running_var :=
  ⟨rfl, rfl⟩

theorem randomZoomAlongAxis_congr (resize : List ℕ → NDArray → NDArray)
    (randint randint' : Key → ℕ → ℕ → ℕ) (key : Key) (x : NDArray)
    (factor : ℚ) (axis : ℕ)
    (h : ∀ lo hi, randint key lo hi = randint' key lo hi) :
    randomZoomAlongAxis resize randint key x factor axis =
      randomZoomAlongAxis resize randint' key x factor axis := by
  unfold randomZoomAlongAxis randomCropNd
  simp only [h]

/-- C7: the layer calls are deterministic functions of their fields and
explicit arguments, and the random layers draw all randomness from the
explicitly passed key: replacing every PRNG oracle (`bernoulli`,
`randint`, `split`, `uniform`) by another that agrees at the passed key
and at the keys split from it leaves the outputs of `Dropout.__call__`,
`RandomCropND.__call__` and `RandomZoom1D/2D/3D.__call__` unchanged. -/
theorem random_layer_calls_keyed (bern bern' : Key → ℚ → List ℕ → NDArray)
    (randint randint' : Key → ℕ → ℕ → ℕ) (split split' : Key → ℕ → List Key)
    (uniform uniform' : Key → ℚ → ℚ → ℚ)
    (resize : List ℕ → NDArray → NDArray) (p : ℚ) (x : NDArray) (key : Key)
    (size : List ℕ) (lf wf df : ℚ × ℚ)
    (hb : ∀ q s, bern key q s = bern' key q s)
    (hr : ∀ lo hi, randint key lo hi = randint' key lo hi)
    (hs : ∀ n, split key n = split' key n)
    (hu : ∀ n i lo hi, uniform ((split key n).getD i 0) lo hi =
      uniform' ((split key n).getD i 0) lo hi)
    (hri : ∀ n i lo hi, randint ((split key n).getD i 0) lo hi =
      randint' ((split key n).getD i 0) lo hi) :
    dropoutCall bern p x key = dropoutCall bern' p x key ∧
    randomCropCall randint size x key = randomCropCall randint' size x key ∧
    randomZoom1Call split uniform resize randint lf x key =
      randomZoom1Call split' uniform' resize randint' lf x key ∧
    randomZoom2Call split uniform resize randint lf wf x key =
      randomZoom2Call split' uniform' resize randint' lf wf x key ∧
    randomZoom3Call split uniform resize randint lf wf df x key =
      randomZoom3Call split' uniform' resize randint' lf wf df x key := by
  refine ⟨?_, ?_, ?_, ?_, ?_⟩
  · unfold dropoutCall
    rw [hb]
  · unfold randomCropCall randomCropNd
    simp only [hr]
  · unfold randomZoom1Call
    simp only [← hs]
    rw [← hu 2 0 lf.1 lf.2]
    exact randomZoomAlongAxis_congr resize randint randint' _ _ _ _
      (fun lo hi => hri 2 1 lo hi)
  · unfold randomZoom2Call
    simp only [← hs]
    rw [← hu 4 0 lf.1 lf.2, ← hu 4 1 wf.1 wf.2]
    rw [randomZoomAlongAxis_congr resize randint randint'
      ((split key 4).getD 2 0) _ _ _ (fun lo hi => hri 4 2 lo hi)]
    rw [randomZoomAlongAxis_congr resize randint randint'
      ((split key 4).getD 3 0) _ _ _ (fun lo hi => hri 4 3 lo hi)]
  · unfold randomZoom3Call
    simp only [← hs]
    rw [← hu 6 0 lf.1 lf.2, ← hu 6 1 wf.1 wf.2, ← hu 6 4 df.1 df.2]
    rw [randomZoomAlongAxis_congr resize randint randint'
      ((split key 6).getD 2 0) _ _ _ (fun lo hi => hri 6 2 lo hi)]
    rw [randomZoomAlongAxis_congr resize randint randint'
      ((split key 6).getD 3 0) _ _ _ (fun lo hi => hri 6 3 lo hi)]
    rw [randomZoomAlongAxis_congr resize randint randint'
      ((split key 6).getD 5 0) _ _ _ (fun lo hi => hri 6 5 lo hi)]

/-- Witness for C7 at concrete oracles and inputs: the primed oracles
agree with the unprimed ones at key 0 (the passed key) and key 1 (every
key split from it) and differ elsewhere. -/
theorem random_layer_calls_keyed_witness :
    dropoutCall (fun _ _ s => onesInit s) (1/2) ⟨[1, 2], [5, 6]⟩ 0 =
      dropoutCall (fun k _ s => if k = 0 then onesInit s else zerosInit s)
        (1/2) ⟨[1, 2], [5, 6]⟩ 0 ∧
    randomCropCall (fun _ lo _ => lo) [1] ⟨[1, 2], [5, 6]⟩ 0 =
      randomCropCall (fun k lo hi => if k ≤ 1 then lo else hi) [1]
        ⟨[1, 2], [5, 6]⟩ 0 ∧
    randomZoom1Call (fun _ n => List.replicate n 1) (fun _ lo _ => lo)
        (fun s y => reshape y s) (fun _ lo _ => lo) (1/2, 1)
        ⟨[1, 2], [5, 6]⟩ 0 =
      randomZoom1Call (fun k n => if k = 0 then List.replicate n 1
          else List.replicate n 9)
        (fun k lo hi => if k ≤ 1 then lo else hi) (fun s y => reshape y s)
        (fun k lo hi => if k ≤ 1 then lo else hi) (1/2, 1)
        ⟨[1, 2], [5, 6]⟩ 0 ∧
    randomZoom2Call (fun _ n => List.replicate n 1) (fun _ lo _ => lo)
        (fun s y => reshape y s) (fun _ lo _ => lo) (1/2, 1) (1/2, 1)
        ⟨[1, 2], [5, 6]⟩ 0 =
      randomZoom2Call (fun k n => if k = 0 then List.replicate n 1
          else List.replicate n 9)
        (fun k lo hi => if k ≤ 1 then lo else hi) (fun s y => reshape y s)
        (fun k lo hi => if k ≤ 1 then lo else hi) (1/2, 1) (1/2, 1)
        ⟨[1, 2], [5, 6]⟩ 0 ∧
    randomZoom3Call (fun _ n => List.replicate n 1) (fun _ lo _ => lo)
        (fun s y => reshape y s) (fun _ lo _ => lo) (1/2, 1) (1/2, 1)
        (1/2, 1) ⟨[1, 2], [5, 6]⟩ 0 =
      randomZoom3Call (fun k n => if k = 0 then List.replicate n 1
          else List.replicate n 9)
        (fun k lo hi => if k ≤ 1 then lo else hi) (fun s y => reshape y s)
        (fun k lo hi => if k ≤ 1 then lo else hi) (1/2, 1) (1/2, 1)
        (1/2, 1) ⟨[1, 2], [5, 6]⟩ 0 :=
  random_layer_calls_keyed (fun _ _ s => onesInit s)
    (fun k _ s => if k = 0 then onesInit s else zerosInit s)
    (fun _ lo _ => lo) (fun k lo hi => if k ≤ 1 then lo else hi)
    (fun _ n => List.replicate n 1)
    (fun k n => if k = 0 then List.replicate n 1 else List.replicate n 9)
    (fun _ lo _ => lo) (fun k lo hi => if k ≤ 1 then lo else hi)
    (fun s y => reshape y s) (1/2) ⟨[1, 2], [5, 6]⟩ 0 [1]
    (1/2, 1) (1/2, 1) (1/2, 1)
    (fun _ _ => rfl) (fun _ _ => rfl) (fun _ => rfl)
    (fun n i lo hi => by
      have hv : (List.replicate n (1 : ℕ)).getD i 0 ≤ 1 := by
        rw [List.getD_eq_getElem?_getD, List.getElem?_replicate]
        split <;> simp
      exact (if_pos hv).symm)
    (fun n i lo hi => by
      have hv : (List.replicate n (1 : ℕ)).getD i 0 ≤ 1 := by
        rw [List.getD_eq_getElem?_getD, List.getElem?_replicate]
        split <;> simp
      exact (if_pos hv).symm)

theorem flatten_natCast (x : NDArray) (s e : ℕ) :
    flatten x (s : ℤ) (e : ℤ) = collapse x s (e + 1) := by
  simp only [flatten]
  rw [if_pos (by exact_mod_cast Nat.zero_le s), if_pos (by exact_mod_cast Nat.zero_le e)]
  congr 1

/-- C9: `flatten` collapses dims `start_dim..end_dim` (inclusive) into
one dim holding their product and preserves the row-major data, and
`unflatten` at `start_dim` with the collapsed segment of the original
shape is a left inverse of it, recovering the array exactly. -/
theorem flatten_unflatten_inverse (x : NDArray) (s e : ℕ)
    (hse : s ≤ e) (he : e < x.shape.length) :
    (flatten x (s : ℤ) (e : ℤ)).shape =
      x.shape.take s ++ ((x.shape.drop s).take (e + 1 - s)).prod :: x.shape.drop (e + 1) ∧
    (flatten x (s : ℤ) (e : ℤ)).data = x.data ∧
    unflatten (flatten x (s : ℤ) (e : ℤ)) s ((x.shape.drop s).take (e + 1 - s)) = x := by
  rw [flatten_natCast]
  refine ⟨rfl, rfl, ?_⟩
  obtain ⟨sh, da⟩ := x
  simp only [collapse, unflatten, reshape] at *
  simp only [NDArray.mk.injEq, and_true]
  have hs_le : s ≤ sh.length := by omega
  have htake_len : (sh.take s).length = s := by
    rw [List.length_take]
    omega
  have h1 : (sh.take s ++ ((sh.drop s).take (e + 1 - s)).prod :: sh.drop (e + 1)).take s
      = sh.take s := by
    rw [List.take_append_eq_append_take, htake_len, List.take_take]
    simp [Nat.min_self, Nat.sub_self]
  have h2 : (sh.take s ++ ((sh.drop s).take (e + 1 - s)).prod :: sh.drop (e + 1)).drop (s + 1)
      = sh.drop (e + 1) := by
    rw [List.drop_append_eq_append_drop, htake_len]
    have hnil : List.drop (s + 1) (List.take s sh) = [] :=
      List.drop_eq_nil_of_le (by omega)
    rw [hnil, List.nil_append]
    have hone : s + 1 - s = 1 := by omega
    rw [hone]
    rfl
  rw [h1, h2]
  calc sh.take s ++ (sh.drop s).take (e + 1 - s) ++ sh.drop (e + 1)
      = sh.take s ++ ((sh.drop s).take (e + 1 - s) ++ (sh.drop s).drop (e + 1 - s)) := by
        rw [List.append_assoc]
        congr 2
        rw [List.drop_drop]
        congr 1
        omega
    _ = sh := by rw [List.take_append_drop, List.take_append_drop]

/-- Witness for C9 at a concrete `2 × 3 × 4` array, `start_dim = 1`,
`end_dim = 2`. -/
theorem flatten_unflatten_inverse_witness :
    (flatten ⟨[2, 3, 2], [1, 2, 3, 4, 5, 6, 7, 8, 9, 10, 11, 12]⟩ (1 : ℤ) (2 : ℤ)).shape =
      [2, 3, 2].take 1 ++ (([2, 3, 2].drop 1).take (2 + 1 - 1)).prod :: [2, 3, 2].drop (2 + 1) ∧
    (flatten ⟨[2, 3, 2], [1, 2, 3, 4, 5, 6, 7, 8, 9, 10, 11, 12]⟩ (1 : ℤ) (2 : ℤ)).data =
      [1, 2, 3, 4, 5, 6, 7, 8, 9, 10, 11, 12] ∧
    unflatten (flatten ⟨[2, 3, 2], [1, 2, 3, 4, 5, 6, 7, 8, 9, 10, 11, 12]⟩ (1 : ℤ) (2 : ℤ)) 1
        (([2, 3, 2].drop 1).take (2 + 1 - 1)) =
      ⟨[2, 3, 2], [1, 2, 3, 4, 5, 6, 7, 8, 9, 10, 11, 12]⟩ :=
  flatten_unflatten_inverse ⟨[2, 3, 2], [1, 2, 3, 4, 5, 6, 7, 8, 9, 10, 11, 12]⟩ 1 2
    (by decide) (by decide)

theorem valid_cons_iff {idx : Idx} {m : ℕ} {rest : List ℕ} :
    Valid idx (m :: rest) ↔ ∃ c is, idx = c :: is ∧ c < m ∧ Valid is rest := by
  constructor
  · intro h
    cases h with
    | cons h1 h2 => exact ⟨_, _, rfl, h1, h2⟩
  · rintro ⟨c, is, rfl, h1, h2⟩
    exact List.Forall₂.cons h1 h2

theorem unpadIdx_some_valid : ∀ (pw : List (ℕ × ℕ)) (sh : List ℕ) (idx j : Idx),
    unpadIdx pw sh idx = some j → Valid j sh := by
  intro pw
  induction pw with
  | nil =>
    intro sh idx j h
    cases sh with
    | nil =>
      cases idx with
      | nil =>
        simp only [unpadIdx, Option.some.injEq] at h
        subst h
        exact List.Forall₂.nil
      | cons i is => simp [unpadIdx] at h
    | cons s sh' => simp [unpadIdx] at h
  | cons p pw ih =>
    intro sh idx j h
    obtain ⟨l, r⟩ := p
    cases sh with
    | nil => simp [unpadIdx] at h
    | cons s sh' =>
      cases idx with
      | nil => simp [unpadIdx] at h
      | cons i is =>
        simp only [unpadIdx] at h
        split at h
        · rcases Option.map_eq_some'.mp h with ⟨j', hj', rfl⟩
          refine List.Forall₂.cons (by omega) (ih sh' is j' hj')
        · cases h

theorem index0_shape (x : NDArray) (c : ℕ) : (index0 x c).shape = x.shape.tail := rfl

theorem index0_get {x : NDArray} {c : ℕ} {j : Idx} (h : Valid j x.shape.tail) :
    (index0 x c).get j = x.get (c :: j) := ofFn_get h

/-- C10: the old `PadND.__call__` (pad the whole array with
`((0, 0), *padding)`) and the new one (vmap `jnp.pad` with the spatial
padding over the channel axis) agree on every channel-first array, and
the output keeps the channel axis size while growing each spatial axis
by its left plus right padding. -/
theorem padnd_old_new_equivalent (padding : List (ℕ × ℕ)) (v : ℚ)
    (x : NDArray) (n : ℕ) (spatial : List ℕ) (hsh : x.shape = n :: spatial) :
    oldPadCall padding v x = newPadCall padding v x ∧
    (oldPadCall padding v x).shape =
      n :: List.zipWith (fun s p => p.1 + s + p.2) spatial padding := by
  have hidx0 : ∀ c, (index0 x c).shape = spatial := by
    intro c
    rw [index0_shape, hsh]
    rfl
  constructor
  · show jnpPad x ((0, 0) :: padding) v = vmap0 (fun ch => jnpPad ch padding v) x
    unfold jnpPad vmap0
    apply ofFn_ext
    · show List.zipWith (fun s p => p.1 + s + p.2) x.shape ((0, 0) :: padding) =
        x.shape.headD 0 ::
          List.zipWith (fun s p => p.1 + s + p.2) x.shape.tail padding
      rw [hsh]
      show (0 + n + 0) :: List.zipWith (fun s p => p.1 + s + p.2) spatial padding =
        n :: List.zipWith (fun s p => p.1 + s + p.2) spatial padding
      norm_num
    · intro idx hv
      rw [hsh] at hv
      have hv' : Valid idx
          ((0 + n + 0) :: List.zipWith (fun s p => p.1 + s + p.2) spatial padding) := hv
      obtain ⟨c, is, rfl, hc, his⟩ := valid_cons_iff.mp hv'
      show (match unpadIdx ((0, 0) :: padding) x.shape (c :: is) with
            | some j => x.get j
            | none => v) =
          (jnpPad (index0 x c) padding v).get is
      have hleft : unpadIdx ((0, 0) :: padding) x.shape (c :: is)
          = (unpadIdx padding spatial is).map (fun j => c :: j) := by
        rw [hsh]
        show (if 0 ≤ c ∧ c < 0 + n then
          (unpadIdx padding spatial is).map (fun j => (c - 0) :: j) else none) = _
        rw [if_pos (by omega)]
        simp
      rw [hleft]
      unfold jnpPad
      rw [hidx0 c, ofFn_get his]
      cases hu : unpadIdx padding spatial is with
      | none => rfl
      | some j =>
        exact (index0_get (by rw [hsh]; exact unpadIdx_some_valid _ _ _ _ hu)).symm
  · show List.zipWith (fun s p => p.1 + s + p.2) x.shape ((0, 0) :: padding) = _
    rw [hsh]
    show (0 + n + 0) :: _ = _
    norm_num

/-- Witness for C10 at a concrete `2 × 2 × 2` array with asymmetric
padding and pad value 7. -/
theorem padnd_old_new_equivalent_witness :
    oldPadCall [(1, 1), (0, 2)] 7 ⟨[2, 2, 2], [1, 2, 3, 4, 5, 6, 7, 8]⟩ =
      newPadCall [(1, 1), (0, 2)] 7 ⟨[2, 2, 2], [1, 2, 3, 4, 5, 6, 7, 8]⟩ ∧
    (oldPadCall [(1, 1), (0, 2)] 7 ⟨[2, 2, 2], [1, 2, 3, 4, 5, 6, 7, 8]⟩).shape =
      2 :: List.zipWith (fun s p => p.1 + s + p.2) [2, 2] [(1, 1), (0, 2)] :=
  padnd_old_new_equivalent [(1, 1), (0, 2)] 7 ⟨[2, 2, 2], [1, 2, 3, 4, 5, 6, 7, 8]⟩
    2 [2, 2] rfl

theorem valid_iff_get {idx : Idx} {s : List ℕ} :
    Valid idx s ↔ idx.length = s.length ∧
      ∀ k (h1 : k < idx.length) (h2 : k < s.length), idx[k] < s[k] :=
  List.forall₂_iff_get

theorem centerCropNd_get {y : NDArray} {sizes : List ℕ} {is : Idx}
    (h : Valid is sizes) :
    (centerCropNd y sizes).get is = y.get (List.zipWith (fun a b => a + b)
      (List.zipWith min
        (List.zipWith (fun (shape size : ℕ) =>
          (max ((shape : ℤ) / 2 - (size : ℤ) / 2) 0).toNat) y.shape sizes)
        (List.zipWith (fun sh sz => sh - sz) y.shape sizes)) is) := by
  unfold centerCropNd dynamicSlice
  exact ofFn_get h

/-- C5: `CenterCropND` on a channel-first array with per-axis sizes not
exceeding the spatial sizes returns an array of shape
`(channels, *sizes)` whose element at spatial index `(i_1, ..., i_n)` is
the input element at `(start_k + i_k)` in the same channel, where
`start_k = max(shape_k // 2 - size_k // 2, 0)` (natural subtraction). -/
theorem centerCrop_correct (x : NDArray) (n : ℕ) (spatial sizes : List ℕ)
    (hsh : x.shape = n :: spatial)
    (hle : List.Forall₂ (fun sz sp => sz ≤ sp) sizes spatial) :
    (centerCropCall sizes x).shape = n :: sizes ∧
    ∀ c is, c < n → Valid is sizes →
      (centerCropCall sizes x).get (c :: is) =
        x.get (c :: List.zipWith (fun p i => p.1 / 2 - p.2 / 2 + i)
          (spatial.zip sizes) is) := by
  have hlen : sizes.length = spatial.length := hle.length_eq
  have hsp : ∀ k (h1 : k < sizes.length) (h2 : k < spatial.length),
      sizes[k] ≤ spatial[k] := (List.forall₂_iff_get.mp hle).2
  have hidx0 : ∀ c, (index0 x c).shape = spatial := by
    intro c
    rw [index0_shape, hsh]
    rfl
  constructor
  · show x.shape.headD 0 :: sizes = n :: sizes
    rw [hsh]
    rfl
  · intro c is hc his
    have hislen : is.length = sizes.length := his.length_eq
    have hisk : ∀ k (h1 : k < is.length) (h2 : k < sizes.length),
        is[k] < sizes[k] := (List.forall₂_iff_get.mp his).2
    have hvalid : Valid (c :: is) (x.shape.headD 0 :: sizes) := by
      apply valid_cons_iff.mpr
      exact ⟨c, is, rfl, by rw [hsh]; exact hc, his⟩
    show (ofFn (x.shape.headD 0 :: sizes)
      (fun idx => (centerCropNd (index0 x (idx.headD 0)) sizes).get idx.tail)).get
        (c :: is) = _
    rw [ofFn_get hvalid]
    simp only [List.headD_cons, List.tail_cons]
    rw [centerCropNd_get his, hidx0 c]
    have hzip : List.zipWith (fun a b => a + b)
        (List.zipWith min
          (List.zipWith (fun (shape size : ℕ) =>
            (max ((shape : ℤ) / 2 - (size : ℤ) / 2) 0).toNat) spatial sizes)
          (List.zipWith (fun sh sz => sh - sz) spatial sizes)) is
        = List.zipWith (fun p i => p.1 / 2 - p.2 / 2 + i) (spatial.zip sizes) is := by
      apply List.ext_getElem
      · simp only [List.length_zipWith, List.length_zip]
        omega
      · intro k hk1 hk2
        have hks : k < sizes.length := by
          simp [List.length_zipWith, List.length_zip] at hk1
          omega
        have hkp : k < spatial.length := by omega
        have hki : k < is.length := by omega
        simp only [List.getElem_zipWith, List.getElem_zip]
        have h1 : ((max ((spatial[k] : ℤ) / 2 - (sizes[k] : ℤ) / 2) 0).toNat)
            = spatial[k] / 2 - sizes[k] / 2 := by omega
        have h2 : sizes[k] ≤ spatial[k] := hsp k hks hkp
        rw [h1]
        have h3 : min (spatial[k] / 2 - sizes[k] / 2) (spatial[k] - sizes[k])
            = spatial[k] / 2 - sizes[k] / 2 := by omega
        rw [h3]
    rw [hzip]
    apply index0_get
    rw [hsh]
    show Valid _ spatial
    apply valid_iff_get.mpr
    constructor
    · simp only [List.length_zipWith, List.length_zip]
      omega
    · intro k hk1 hk2
      have hks : k < sizes.length := by
        simp [List.length_zipWith, List.length_zip] at hk1
        omega
      have hki : k < is.length := by omega
      simp only [List.getElem_zipWith, List.getElem_zip]
      have h2 : sizes[k] ≤ spatial[k] := hsp k hks hk2
      have h4 : is[k] < sizes[k] := hisk k hki hks
      omega

/-- Witness for C5 at a concrete `1 × 12` array cropped to size 4
(the `CenterCrop1D` docstring example). -/
theorem centerCrop_correct_witness :
    (centerCropCall [4] ⟨[1, 12], [1, 2, 3, 4, 5, 6, 7, 8, 9, 10, 11, 12]⟩).shape
        = 1 :: [4] ∧
    ∀ c is, c < 1 → Valid is [4] →
      (centerCropCall [4] ⟨[1, 12], [1, 2, 3, 4, 5, 6, 7, 8, 9, 10, 11, 12]⟩).get
          (c :: is) =
        NDArray.get ⟨[1, 12], [1, 2, 3, 4, 5, 6, 7, 8, 9, 10, 11, 12]⟩
          (c :: List.zipWith (fun p i => p.1 / 2 - p.2 / 2 + i)
            ([12].zip [4]) is) :=
  centerCrop_correct ⟨[1, 12], [1, 2, 3, 4, 5, 6, 7, 8, 9, 10, 11, 12]⟩ 1 [12] [4]
    rfl (by decide)

theorem pytree_induction (motive : PyTree → Prop)
    (hleaf : ∀ l, motive (.leaf l))
    (hnode : ∀ ts, (∀ t ∈ ts, motive t) → motive (.node ts)) :
    ∀ t, motive t
  | .leaf l => hleaf l
  | .node ts => hnode ts (fun t _ht => pytree_induction motive hleaf hnode t)
decreasing_by
  simp_wf
  have := List.sizeOf_lt_of_mem _ht
  omega

theorem mapLeaves_leaf (f : Layer → Layer) (l : Layer) :
    mapLeaves f (.leaf l) = .leaf (f l) := by
  unfold mapLeaves
  rfl

theorem mapLeaves_node (f : Layer → Layer) (ts : List PyTree) :
    mapLeaves f (.node ts) = .node (ts.map (mapLeaves f)) := by
  rw [mapLeaves]
  rw [List.attach_map_val]

theorem mapLeaves_congr {f g : Layer → Layer} (h : ∀ l, f l = g l)
    (t : PyTree) : mapLeaves f t = mapLeaves g t := by
  induction t using pytree_induction with
  | hleaf l => rw [mapLeaves_leaf, mapLeaves_leaf, h]
  | hnode ts ih =>
    rw [mapLeaves_node, mapLeaves_node]
    exact congrArg PyTree.node (List.map_congr_left ih)

theorem mapLeaves_mapLeaves (f g : Layer → Layer) (t : PyTree) :
    mapLeaves f (mapLeaves g t) = mapLeaves (fun l => f (g l)) t := by
  induction t using pytree_induction with
  | hleaf l => rw [mapLeaves_leaf, mapLeaves_leaf, mapLeaves_leaf]
  | hnode ts ih =>
    rw [mapLeaves_node, mapLeaves_node, mapLeaves_node, List.map_map]
    refine congrArg PyTree.node (List.map_congr_left ?_)
    intro t ht
    exact ih t ht

/-- The shape of a pytree with all leaf contents forgotten. -/
def skeleton (t : PyTree) : PyTree := mapLeaves (fun _ => .identity) t

/-- C2: `tree_eval` returns a tree of the same structure in which every
RandomCrop1D/2D/3D and RandomZoom1D/2D/3D leaf becomes `Identity`, every
`BatchNorm` leaf becomes an `EvalNorm` with equal `in_features`, `eps`,
`axis` and `axis_name` and with the `BatchNorm`'s own weight and bias
arrays (momentum is copied but ignored), and every leaf of a type with
no registered eval rule is returned unchanged. -/
theorem tree_eval_replaces_layers (t : PyTree) :
    treeEval t = mapLeaves (fun l =>
      match l with
      | .randomCrop1D _ => .identity
      | .randomCrop2D _ => .identity
      | .randomCrop3D _ => .identity
      | .randomZoom1D _ => .identity
      | .randomZoom2D _ _ => .identity
      | .randomZoom3D _ _ _ => .identity
      | .batchNorm bn => .evalNorm
          ⟨bn.in_features, bn.momentum, bn.eps, bn.weight, bn.bias,
           bn.axis, bn.axis_name⟩
      | .evalNorm en => .evalNorm en
      | .identity => .identity
      | .other tag => .other tag) t ∧
    skeleton (treeEval t) = skeleton t := by
  constructor
  · apply mapLeaves_congr
    intro l
    cases l <;> rfl
  · show mapLeaves _ (mapLeaves _ t) = _
    rw [mapLeaves_mapLeaves]
    rfl

theorem getD_map_lt {α β : Type} {l : List α} {f : α → β} {i : ℕ}
    {d : β} {e : α} (h : i < l.length) : (l.map f).getD i d = f (l.getD i e) := by
  rw [List.getD_eq_getElem?_getD, List.getElem?_map, List.getD_eq_getElem?_getD,
    List.getElem?_eq_getElem h]
  rfl

theorem set_replicate_split {α : Type} (c v : α) :
    ∀ (axis n : ℕ), axis < n → (List.replicate n c).set axis v =
      List.replicate axis c ++ v :: List.replicate (n - axis - 1) c := by
  intro axis
  induction axis with
  | zero =>
    intro n hn
    cases n with
    | zero => omega
    | succ m => simp [List.replicate_succ]
  | succ a ih =>
    intro n hn
    cases n with
    | zero => omega
    | succ m =>
      rw [List.replicate_succ, List.set_cons_succ, ih m (by omega)]
      simp [List.replicate_succ]

theorem broadcastShapeOf_length (s : List ℕ) (axis : ℕ) :
    (broadcastShapeOf s axis).length = s.length := by
  simp [broadcastShapeOf]

theorem eIdx_length (n axis j : ℕ) : (eIdx n axis j).length = n := by
  simp [eIdx]

theorem broadcastShapeOf_getElem {s : List ℕ} {axis k : ℕ}
    (hk : k < (broadcastShapeOf s axis).length) :
    (broadcastShapeOf s axis)[k] = if axis = k then s.getD axis 0 else 1 := by
  unfold broadcastShapeOf
  rw [List.getElem_set]
  split
  · rfl
  · rw [List.getElem_replicate]

theorem eIdx_getElem {n axis j k : ℕ} (hk : k < (eIdx n axis j).length) :
    (eIdx n axis j)[k] = if axis = k then j else 0 := by
  unfold eIdx
  rw [List.getElem_set]
  split
  · rfl
  · rw [List.getElem_replicate]

theorem getD_eIdx_axis {n axis j : ℕ} (hax : axis < n) :
    (eIdx n axis j).getD axis 0 = j := by
  have hlen : axis < (eIdx n axis j).length := by rwa [eIdx_length]
  rw [List.getD_eq_getElem?_getD, List.getElem?_eq_getElem hlen,
    Option.getD_some, eIdx_getElem hlen, if_pos rfl]

theorem valid_eIdx {s : List ℕ} {axis j : ℕ}
    (hj : j < s.getD axis 0) :
    Valid (eIdx s.length axis j) (broadcastShapeOf s axis) := by
  apply valid_iff_get.mpr
  constructor
  · rw [eIdx_length, broadcastShapeOf_length]
  · intro k h1 h2
    rw [eIdx_getElem h1, broadcastShapeOf_getElem h2]
    split
    · exact hj
    · exact Nat.zero_lt_one

theorem bshape_self (t : List ℕ) : bshape t t = t := by
  simp only [bshape, Nat.max_self, Nat.sub_self, List.replicate_zero,
    List.nil_append, List.zipWith_same]
  simp

theorem bshape_pos_bsh {s : List ℕ} {axis : ℕ}
    (hpos : ∀ n ∈ s, 0 < n) : bshape s (broadcastShapeOf s axis) = s := by
  simp only [bshape, broadcastShapeOf_length, Nat.max_self, Nat.sub_self,
    List.replicate_zero, List.nil_append]
  apply List.ext_getElem
  · simp [List.length_zipWith, broadcastShapeOf_length]
  · intro k hk1 hk2
    rw [List.getElem_zipWith]
    rw [broadcastShapeOf_getElem (by rw [broadcastShapeOf_length]; exact hk2)]
    have hsk : 0 < s[k] := hpos s[k] (List.getElem_mem hk2)
    split
    · rename_i hek
      subst hek
      have : s.getD axis 0 = s[axis] := by
        rw [List.getD_eq_getElem?_getD, List.getElem?_eq_getElem hk2]
        rfl
      rw [this]
      exact Nat.max_self _
    · omega

theorem get_one_dim {y : NDArray} {f j : ℕ} (hsh : y.shape = [f]) :
    y.get [j] = y.data.getD j 0 := by
  unfold NDArray.get
  rw [hsh]
  show y.data.getD (j * List.prod [] + 0) 0 = _
  norm_num

theorem emap_shape (f : ℚ → ℚ) (x : NDArray) : (emap f x).shape = x.shape := rfl

theorem emap_wf {f : ℚ → ℚ} {x : NDArray} (h : x.wf) : (emap f x).wf := by
  unfold NDArray.wf emap at *
  simpa using h

theorem emap_get {f : ℚ → ℚ} {x : NDArray} {idx : Idx} (hwf : x.wf)
    (h : Valid idx x.shape) : (emap f x).get idx = f (x.get idx) := by
  unfold emap NDArray.get
  exact getD_map_lt (by rw [hwf]; exact rowIndex_lt h)

theorem bcast_same {x : NDArray} {s : List ℕ} {idx : Idx} (hx : x.shape = s)
    (h : Valid idx s) : bcastGet x s.length idx = x.get idx := by
  unfold bcastGet
  rw [hx, Nat.sub_self, List.drop_zero]
  congr 1
  apply List.ext_getElem
  · rw [List.length_zipWith, (valid_iff_get.mp h).1]
    simp
  · intro k hk1 hk2
    have hks : k < s.length := by
      rw [List.length_zipWith] at hk1
      omega
    rw [List.getElem_zipWith]
    split
    · rename_i h1
      have := (valid_iff_get.mp h).2 k hk2 hks
      omega
    · rfl

theorem bcast_bsh {B : NDArray} {s : List ℕ} {axis : ℕ} {idx : Idx}
    (hB : B.shape = broadcastShapeOf s axis)
    (h : Valid idx s) :
    bcastGet B s.length idx = B.get (eIdx s.length axis (idx.getD axis 0)) := by
  unfold bcastGet
  rw [hB, broadcastShapeOf_length, Nat.sub_self, List.drop_zero]
  congr 1
  have hlen : idx.length = s.length := (valid_iff_get.mp h).1
  apply List.ext_getElem
  · rw [List.length_zipWith, broadcastShapeOf_length, eIdx_length]
    omega
  · intro k hk1 hk2
    rw [List.getElem_zipWith, eIdx_getElem hk2]
    rw [eIdx_length] at hk2
    rw [broadcastShapeOf_getElem (by rw [broadcastShapeOf_length]; exact hk2)]
    have hik : k < idx.length := by omega
    by_cases hek : axis = k
    · subst hek
      rw [if_pos rfl, if_pos rfl]
      have hfa : s.getD axis 0 = s[axis] := by
        rw [List.getD_eq_getElem?_getD, List.getElem?_eq_getElem hk2]
        rfl
      have hia : idx.getD axis 0 = idx[axis] := by
        rw [List.getD_eq_getElem?_getD, List.getElem?_eq_getElem hik]
        rfl
      rw [hfa, hia]
      split
      · rename_i h1
        have := (valid_iff_get.mp h).2 axis hik hk2
        omega
      · rfl
    · rw [if_neg hek, if_neg hek, if_pos rfl]

theorem bop_shape_same {f : ℚ → ℚ → ℚ} {x y : NDArray} {t : List ℕ}
    (hx : x.shape = t) (hy : y.shape = t) : (bop f x y).shape = t := by
  show bshape x.shape y.shape = t
  rw [hx, hy, bshape_self]

theorem bop_get_same {f : ℚ → ℚ → ℚ} {x y : NDArray} {t : List ℕ} {idx : Idx}
    (hx : x.shape = t) (hy : y.shape = t) (h : Valid idx t) :
    (bop f x y).get idx = f (x.get idx) (y.get idx) := by
  unfold bop
  have hb : bshape x.shape y.shape = t := by rw [hx, hy, bshape_self]
  rw [hb, ofFn_get h, bcast_same hx h, bcast_same hy h]

theorem bop_shape_bsh {f : ℚ → ℚ → ℚ} {x B : NDArray} {s : List ℕ} {axis : ℕ}
    (hx : x.shape = s) (hB : B.shape = broadcastShapeOf s axis)
    (hpos : ∀ n ∈ s, 0 < n) : (bop f x B).shape = s := by
  show bshape x.shape B.shape = s
  rw [hx, hB, bshape_pos_bsh hpos]

theorem bop_get_bsh {f : ℚ → ℚ → ℚ} {x B : NDArray} {s : List ℕ} {axis : ℕ}
    {idx : Idx} (hx : x.shape = s) (hB : B.shape = broadcastShapeOf s axis)
    (hpos : ∀ n ∈ s, 0 < n) (h : Valid idx s) :
    (bop f x B).get idx =
      f (x.get idx) (B.get (eIdx s.length axis (idx.getD axis 0))) := by
  unfold bop
  have hb : bshape x.shape B.shape = s := by rw [hx, hB, bshape_pos_bsh hpos]
  rw [hb, ofFn_get h, bcast_same hx h, bcast_bsh hB h]

theorem rowIndex_replicate_one : ∀ b : ℕ,
    rowIndex (List.replicate b 1) (List.replicate b 0) = 0 := by
  intro b
  induction b with
  | zero => rfl
  | succ m ih => simp [List.replicate_succ, rowIndex, ih]

theorem rowIndex_eIdx_split : ∀ (a : ℕ) (b f j : ℕ),
    rowIndex (List.replicate a 1 ++ f :: List.replicate b 1)
      (List.replicate a 0 ++ j :: List.replicate b 0) = j := by
  intro a
  induction a with
  | zero =>
    intro b f j
    simp [rowIndex, List.prod_replicate, rowIndex_replicate_one]
  | succ m ih =>
    intro b f j
    show 0 * (List.replicate m 1 ++ f :: List.replicate b 1).prod +
      rowIndex (List.replicate m 1 ++ f :: List.replicate b 1)
        (List.replicate m 0 ++ j :: List.replicate b 0) = j
    rw [ih b f j]
    omega

theorem allIdx_replicate_one : ∀ b : ℕ,
    allIdx (List.replicate b 1) = [List.replicate b 0] := by
  intro b
  induction b with
  | zero => rfl
  | succ m ih => simp [List.replicate_succ, allIdx, ih, List.range_succ]

theorem allIdx_broadcast_split : ∀ (a : ℕ) (b f : ℕ),
    allIdx (List.replicate a 1 ++ f :: List.replicate b 1) =
      (List.range f).map (fun j => List.replicate a 0 ++ j :: List.replicate b 0) := by
  intro a
  induction a with
  | zero =>
    intro b f
    simp only [List.replicate_zero, List.nil_append, allIdx,
      allIdx_replicate_one]
    exact (List.map_eq_flatMap _ _).symm
  | succ m ih =>
    intro b f
    simp [List.replicate_succ, allIdx, ih, List.range_succ, List.map_map,
      Function.comp]

theorem filter_ne_one_replicate : ∀ k : ℕ,
    (List.replicate k 1).filter (fun n => n != 1) = [] := by
  intro k
  induction k with
  | zero => rfl
  | succ m ih => simp [List.replicate_succ, List.filter_cons, ih]

theorem filter_bsh (a b f : ℕ) :
    (List.replicate a 1 ++ f :: List.replicate b 1).filter (fun n => n != 1) =
      if f = 1 then [] else [f] := by
  rw [List.filter_append, filter_ne_one_replicate, List.nil_append,
    List.filter_cons, filter_ne_one_replicate]
  by_cases hf : f = 1
  · subst hf
    simp
  · simp [hf]

theorem prod_bsh (a b f : ℕ) :
    (List.replicate a 1 ++ f :: List.replicate b 1).prod = f := by
  simp [List.prod_replicate]

theorem broadcastShapeOf_split {s : List ℕ} {axis : ℕ} (hax : axis < s.length) :
    broadcastShapeOf s axis =
      List.replicate axis 1 ++ s.getD axis 0 ::
        List.replicate (s.length - axis - 1) 1 :=
  set_replicate_split 1 (s.getD axis 0) axis s.length hax

theorem eIdx_split {n axis j : ℕ} (hax : axis < n) :
    eIdx n axis j =
      List.replicate axis 0 ++ j :: List.replicate (n - axis - 1) 0 :=
  set_replicate_split 0 j axis n hax

theorem meanAllBut_shape (x : NDArray) (axis : ℕ) :
    (meanAllBut x axis).shape = broadcastShapeOf x.shape axis := rfl

theorem meanAllBut_get {x : NDArray} {axis j : ℕ} (hax : axis < x.shape.length)
    (hj : j < x.shape.getD axis 0) :
    (meanAllBut x axis).get (eIdx x.shape.length axis j) =
      (((allIdx x.shape).filter (fun v => v.getD axis 0 == j)).map x.get).sum /
        ((x.shape.eraseIdx axis).prod : ℚ) := by
  unfold meanAllBut
  rw [ofFn_get (valid_eIdx hj), getD_eIdx_axis hax]

theorem ofFn_bsh_data_getD {s : List ℕ} {axis j : ℕ} {g : Idx → ℚ}
    (hax : axis < s.length) (hj : j < s.getD axis 0) :
    (ofFn (broadcastShapeOf s axis) g).data.getD j 0 =
      g (eIdx s.length axis j) := by
  unfold ofFn
  show ((allIdx (broadcastShapeOf s axis)).map g).getD j 0 = _
  rw [broadcastShapeOf_split hax, allIdx_broadcast_split, List.map_map]
  rw [getD_map_lt (e := 0) (by simpa using hj)]
  have hr : (List.range (s.getD axis 0)).getD j 0 = j := by
    rw [List.getD_eq_getElem?_getD,
      List.getElem?_eq_getElem (by simpa using hj), Option.getD_some,
      List.getElem_range]
  rw [hr]
  show g (List.replicate axis 0 ++ j :: List.replicate (s.length - axis - 1) 0) = _
  rw [← eIdx_split hax]

theorem get_scalar {y : NDArray} (hsh : y.shape = []) :
    y.get [] = y.data.getD 0 0 := by
  unfold NDArray.get
  rw [hsh]
  rfl


theorem bcastGet_scalar {x : NDArray} {rank : ℕ} {idx : Idx}
    (hx : x.shape = []) : bcastGet x rank idx = x.get [] := by
  unfold bcastGet
  rw [hx]
  rfl

theorem valid_singleton {j f : ℕ} (hj : j < f) : Valid [j] [f] :=
  List.Forall₂.cons hj List.Forall₂.nil

theorem bop_shape_vec_scalar {f : ℚ → ℚ → ℚ} {x y : NDArray}
    (hx : x.shape = [1]) (hy : y.shape = []) : (bop f x y).shape = [1] := by
  show bshape x.shape y.shape = [1]
  rw [hx, hy]
  rfl

theorem bop_get_vec_scalar {f : ℚ → ℚ → ℚ} {x y : NDArray}
    (hx : x.shape = [1]) (hy : y.shape = []) :
    (bop f x y).get [0] = f (x.get [0]) (y.get []) := by
  unfold bop
  simp only [hx, hy]
  have hb : bshape [1] [] = [1] := by rfl
  rw [hb, ofFn_get (valid_singleton Nat.one_pos)]
  rw [bcast_same hx (valid_singleton Nat.one_pos)]
  rw [bcastGet_scalar hy]

theorem ofFn_bsh_data_length {s : List ℕ} {axis : ℕ} {g : Idx → ℚ}
    (hax : axis < s.length) :
    (ofFn (broadcastShapeOf s axis) g).data.length = s.getD axis 0 := by
  show ((allIdx _).map g).length = _
  rw [List.length_map, length_allIdx, broadcastShapeOf_split hax, prod_bsh]

theorem update_get {m : ℚ} {rm A : NDArray} {s : List ℕ} {axis j : ℕ}
    {w : ℚ} (hax : axis < s.length) (hj : j < s.getD axis 0)
    (hrm : rm.shape = [s.getD axis 0]) (hrmwf : rm.wf)
    (hAsh : A.shape = broadcastShapeOf s axis) (hAwf : A.wf)
    (hAget : A.data.getD j 0 = w) :
    (bop (fun a b => a + b) (emap (fun a => m * a) rm)
        (emap (fun a => (1 - m) * a) (squeeze A))).shape = [s.getD axis 0] ∧
    (bop (fun a b => a + b) (emap (fun a => m * a) rm)
        (emap (fun a => (1 - m) * a) (squeeze A))).get [j] =
      m * rm.get [j] + (1 - m) * w := by
  have hsq_shape : (squeeze A).shape =
      if s.getD axis 0 = 1 then [] else [s.getD axis 0] := by
    show (A.shape.filter (fun n => n != 1)) = _
    rw [hAsh, broadcastShapeOf_split hax, filter_bsh]
  have hdata_len : A.data.length = s.getD axis 0 := by
    have hl := hAwf
    unfold NDArray.wf at hl
    rw [hAsh, broadcastShapeOf_split hax, prod_bsh] at hl
    exact hl
  have he1 : (emap (fun a => m * a) rm).shape = [s.getD axis 0] := by
    rw [emap_shape, hrm]
  have hrm_get : (emap (fun a => m * a) rm).get [j] = m * rm.get [j] :=
    emap_get hrmwf (by rw [hrm]; exact valid_singleton hj)
  by_cases hf : s.getD axis 0 = 1
  · have hj0 : j = 0 := by omega
    subst hj0
    have he1' : (emap (fun a => m * a) rm).shape = [1] := by rw [he1, hf]
    have he2 : (emap (fun a => (1 - m) * a) (squeeze A)).shape = [] := by
      rw [emap_shape, hsq_shape, if_pos hf]
    have he2get : (emap (fun a => (1 - m) * a) (squeeze A)).get [] =
        (1 - m) * w := by
      rw [get_scalar he2]
      show (A.data.map (fun a => (1 - m) * a)).getD 0 0 = _
      rw [getD_map_lt (e := 0) (by omega), hAget]
    constructor
    · rw [bop_shape_vec_scalar he1' he2, hf]
    · rw [bop_get_vec_scalar he1' he2, hrm_get, he2get]
  · have he2 : (emap (fun a => (1 - m) * a) (squeeze A)).shape =
        [s.getD axis 0] := by
      rw [emap_shape, hsq_shape, if_neg hf]
    have hsqwf : (squeeze A).wf := by
      unfold NDArray.wf
      rw [hsq_shape, if_neg hf]
      show A.data.length = _
      rw [hdata_len]
      simp
    constructor
    · exact bop_shape_same he1 he2
    · rw [bop_get_same he1 he2 (valid_singleton hj), hrm_get]
      congr 1
      rw [emap_get hsqwf (by rw [hsq_shape, if_neg hf]; exact valid_singleton hj)]
      congr 1
      rw [get_one_dim (by rw [hsq_shape, if_neg hf])]
      show A.data.getD j 0 = _
      exact hAget

theorem valid_getD_lt {idx : Idx} {s : List ℕ} {axis : ℕ} (h : Valid idx s)
    (hax : axis < s.length) : idx.getD axis 0 < s.getD axis 0 := by
  obtain ⟨hlen, hel⟩ := valid_iff_get.mp h
  have h1 : axis < idx.length := by omega
  have h2 := hel axis h1 hax
  rw [List.getD_eq_getElem?_getD, List.getElem?_eq_getElem h1, Option.getD_some]
  rw [List.getD_eq_getElem?_getD, List.getElem?_eq_getElem hax, Option.getD_some]
  exact h2

theorem get_bsh_eIdx {A : NDArray} {s : List ℕ} {axis j : ℕ}
    (hAsh : A.shape = broadcastShapeOf s axis) (hax : axis < s.length) :
    A.get (eIdx s.length axis j) = A.data.getD j 0 := by
  unfold NDArray.get
  rw [hAsh, broadcastShapeOf_split hax, eIdx_split hax, rowIndex_eIdx_split]

theorem meanAllBut_sq_get {x : NDArray} {axis j : ℕ} (hwf : x.wf)
    (hax : axis < x.shape.length) (hj : j < x.shape.getD axis 0) :
    (meanAllBut (emap (fun a => a * a) x) axis).get
        (eIdx x.shape.length axis j) =
      (((allIdx x.shape).filter (fun v => v.getD axis 0 == j)).map
        (fun v => x.get v * x.get v)).sum /
        ((x.shape.eraseIdx axis).prod : ℚ) := by
  have h := meanAllBut_get (x := emap (fun a => a * a) x) hax hj
  rw [show eIdx x.shape.length axis j
      = eIdx (emap (fun a => a * a) x).shape.length axis j from rfl, h]
  show (((allIdx x.shape).filter (fun v => v.getD axis 0 == j)).map
      (emap (fun a => a * a) x).get).sum /
      ((x.shape.eraseIdx axis).prod : ℚ) = _
  congr 1
  apply congrArg List.sum
  apply List.map_congr_left
  intro v hv
  exact emap_get hwf (mem_allIdx.mp (List.mem_of_mem_filter hv))

theorem batchvar_get {x : NDArray} {axis j : ℕ} (hwf : x.wf)
    (hax : axis < x.shape.length) (hj : j < x.shape.getD axis 0) :
    (bop (fun a b => a - b) (meanAllBut (emap (fun a => a * a) x) axis)
      (bop (fun a b => a * b) (meanAllBut x axis) (meanAllBut x axis))).get
        (eIdx x.shape.length axis j) =
      (((allIdx x.shape).filter (fun v => v.getD axis 0 == j)).map
        (fun v => x.get v * x.get v)).sum /
        ((x.shape.eraseIdx axis).prod : ℚ) -
      ((((allIdx x.shape).filter (fun v => v.getD axis 0 == j)).map x.get).sum /
        ((x.shape.eraseIdx axis).prod : ℚ)) *
      ((((allIdx x.shape).filter (fun v => v.getD axis 0 == j)).map x.get).sum /
        ((x.shape.eraseIdx axis).prod : ℚ)) := by
  rw [bop_get_same (t := broadcastShapeOf x.shape axis) rfl
    (bop_shape_same rfl rfl) (valid_eIdx hj)]
  rw [bop_get_same (t := broadcastShapeOf x.shape axis) rfl rfl (valid_eIdx hj)]
  rw [meanAllBut_sq_get hwf hax hj, meanAllBut_get hax hj]

theorem reshape_bsh_get {b : NDArray} {s : List ℕ} {axis j : ℕ}
    (hax : axis < s.length) :
    (reshape b (broadcastShapeOf s axis)).get (eIdx s.length axis j) =
      b.data.getD j 0 :=
  get_bsh_eIdx rfl hax

theorem trainStep_output (sqrt : ℚ → ℚ) (m eps : ℚ) (axis : ℕ) (x : NDArray)
    (st : BatchNormState) (hwf : x.wf) (hax : axis < x.shape.length)
    (hpos : ∀ n ∈ x.shape, 0 < n) :
    (trainStep sqrt m eps axis x st).1.shape = x.shape ∧
    ∀ idx, Valid idx x.shape → (trainStep sqrt m eps axis x st).1.get idx =
      (x.get idx -
        (((allIdx x.shape).filter
            (fun v => v.getD axis 0 == idx.getD axis 0)).map x.get).sum /
          ((x.shape.eraseIdx axis).prod : ℚ)) /
      sqrt ((((allIdx x.shape).filter
            (fun v => v.getD axis 0 == idx.getD axis 0)).map
              (fun v => x.get v * x.get v)).sum /
            ((x.shape.eraseIdx axis).prod : ℚ) -
          ((((allIdx x.shape).filter
              (fun v => v.getD axis 0 == idx.getD axis 0)).map x.get).sum /
            ((x.shape.eraseIdx axis).prod : ℚ)) *
          ((((allIdx x.shape).filter
              (fun v => v.getD axis 0 == idx.getD axis 0)).map x.get).sum /
            ((x.shape.eraseIdx axis).prod : ℚ)) + eps) := by
  have hbv_sh : (bop (fun a b => a - b)
      (meanAllBut (emap (fun a => a * a) x) axis)
      (bop (fun a b => a * b) (meanAllBut x axis) (meanAllBut x axis))).shape =
      broadcastShapeOf x.shape axis :=
    bop_shape_same rfl (bop_shape_same rfl rfl)
  have hnum_sh : (bop (fun a b => a - b) x (meanAllBut x axis)).shape = x.shape :=
    bop_shape_bsh rfl rfl hpos
  have hden_sh : (emap sqrt (emap (fun a => a + eps) (bop (fun a b => a - b)
      (meanAllBut (emap (fun a => a * a) x) axis)
      (bop (fun a b => a * b) (meanAllBut x axis) (meanAllBut x axis))))).shape =
      broadcastShapeOf x.shape axis := by
    rw [emap_shape, emap_shape]
    exact hbv_sh
  have hbvwf : (bop (fun a b => a - b)
      (meanAllBut (emap (fun a => a * a) x) axis)
      (bop (fun a b => a * b) (meanAllBut x axis) (meanAllBut x axis))).wf :=
    ofFn_wf _ _
  constructor
  · exact bop_shape_bsh hnum_sh hden_sh hpos
  · intro idx hidx
    have hjx : idx.getD axis 0 < x.shape.getD axis 0 := valid_getD_lt hidx hax
    show (bop (fun a b => a / b) (bop (fun a b => a - b) x (meanAllBut x axis))
      (emap sqrt (emap (fun a => a + eps) (bop (fun a b => a - b)
        (meanAllBut (emap (fun a => a * a) x) axis)
        (bop (fun a b => a * b) (meanAllBut x axis)
          (meanAllBut x axis)))))).get idx = _
    rw [bop_get_bsh hnum_sh hden_sh hpos hidx]
    rw [bop_get_bsh rfl rfl hpos hidx]
    rw [meanAllBut_get hax hjx]
    rw [emap_get (emap_wf hbvwf)
      (by rw [emap_shape, hbv_sh]; exact valid_eIdx hjx)]
    rw [emap_get hbvwf (by rw [hbv_sh]; exact valid_eIdx hjx)]
    rw [batchvar_get hwf hax hjx]

/-- C1: a training-mode (batched) `BatchNorm` call returns a new state
with `running_mean = m * running_mean + (1 - m) * batch_mean` and
`running_var = m * running_var + (1 - m) * batch_var`, where
`batch_mean` is the per-feature mean of `x` over all axes except `axis`
and `batch_var = mean(x^2) - batch_mean^2`, and the returned array is
`(x - batch_mean) / sqrt(batch_var + eps)`, multiplied elementwise by
the weight and incremented by the bias when those are present. -/
theorem batchnorm_train_correct (sqrt : ℚ → ℚ) (bn : BatchNormLayer)
    (x : NDArray) (st : BatchNormState) (bmean bvar : ℕ → ℚ)
    (hwf : x.wf) (hax : bn.axis < x.shape.length)
    (hpos : ∀ n ∈ x.shape, 0 < n) (_hname : bn.axis_name = none)
    (hrm : st.running_mean.shape = [x.shape.getD bn.axis 0])
    (hrmwf : st.running_mean.wf)
    (hrv : st.running_var.shape = [x.shape.getD bn.axis 0])
    (hrvwf : st.running_var.wf)
    (hw : ∀ g, bn.weight = some g → g.shape = [x.shape.getD bn.axis 0])
    (hb : ∀ b, bn.bias = some b → b.shape = [x.shape.getD bn.axis 0])
    (hbmean : ∀ j, bmean j =
      (((allIdx x.shape).filter (fun v => v.getD bn.axis 0 == j)).map
        x.get).sum / ((x.shape.eraseIdx bn.axis).prod : ℚ))
    (hbvar : ∀ j, bvar j =
      (((allIdx x.shape).filter (fun v => v.getD bn.axis 0 == j)).map
        (fun v => x.get v * x.get v)).sum /
        ((x.shape.eraseIdx bn.axis).prod : ℚ) - bmean j * bmean j) :
    ((batchNormCall sqrt bn x st).2.running_mean.shape =
        [x.shape.getD bn.axis 0] ∧
      ∀ j, j < x.shape.getD bn.axis 0 →
        (batchNormCall sqrt bn x st).2.running_mean.get [j] =
          bn.momentum * st.running_mean.get [j] +
            (1 - bn.momentum) * bmean j) ∧
    ((batchNormCall sqrt bn x st).2.running_var.shape =
        [x.shape.getD bn.axis 0] ∧
      ∀ j, j < x.shape.getD bn.axis 0 →
        (batchNormCall sqrt bn x st).2.running_var.get [j] =
          bn.momentum * st.running_var.get [j] +
            (1 - bn.momentum) * bvar j) ∧
    ((batchNormCall sqrt bn x st).1.shape = x.shape ∧
      ∀ idx, Valid idx x.shape →
        (batchNormCall sqrt bn x st).1.get idx =
          (x.get idx - bmean (idx.getD bn.axis 0)) /
              sqrt (bvar (idx.getD bn.axis 0) + bn.eps) *
            (match bn.weight with
             | some g => g.get [idx.getD bn.axis 0]
             | none => 1) +
          (match bn.bias with
           | some b => b.get [idx.getD bn.axis 0]
           | none => 0)) := by
  refine ⟨⟨?_, ?_⟩, ⟨?_, ?_⟩, ?_, ?_⟩
  · exact (update_get (j := 0) hax (by exact hpos _ (by
      rw [List.getD_eq_getElem?_getD, List.getElem?_eq_getElem hax]
      exact List.getElem_mem hax)) hrm hrmwf rfl (ofFn_wf _ _) rfl).1
  · intro j hj
    have hAget : (meanAllBut x bn.axis).data.getD j 0 = bmean j := by
      rw [← get_bsh_eIdx (s := x.shape) rfl hax, meanAllBut_get hax hj,
        hbmean j]
    exact (update_get hax hj hrm hrmwf rfl (ofFn_wf _ _) hAget).2
  · exact (update_get (j := 0) hax (by exact hpos _ (by
      rw [List.getD_eq_getElem?_getD, List.getElem?_eq_getElem hax]
      exact List.getElem_mem hax)) hrv hrvwf
      (bop_shape_same rfl (bop_shape_same rfl rfl)) (ofFn_wf _ _) rfl).1
  · intro j hj
    have hAsh : (bop (fun a b => a - b)
        (meanAllBut (emap (fun a => a * a) x) bn.axis)
        (bop (fun a b => a * b) (meanAllBut x bn.axis)
          (meanAllBut x bn.axis))).shape = broadcastShapeOf x.shape bn.axis :=
      bop_shape_same rfl (bop_shape_same rfl rfl)
    have hAget : (bop (fun a b => a - b)
        (meanAllBut (emap (fun a => a * a) x) bn.axis)
        (bop (fun a b => a * b) (meanAllBut x bn.axis)
          (meanAllBut x bn.axis))).data.getD j 0 = bvar j := by
      rw [← get_bsh_eIdx hAsh hax, batchvar_get hwf hax hj, hbvar j,
        hbmean j]
    exact (update_get hax hj hrv hrvwf hAsh (ofFn_wf _ _) hAget).2
  · have h1 := (trainStep_output sqrt bn.momentum bn.eps bn.axis x st hwf
      hax hpos).1
    unfold batchNormCall
    cases hgw : bn.weight with
    | none =>
      cases hbw : bn.bias with
      | none => exact h1
      | some b =>
        show (bop (fun a b => a + b) _
          (reshape b (broadcastShapeOf x.shape bn.axis))).shape = x.shape
        exact bop_shape_bsh h1 rfl hpos
    | some g =>
      have h2 : (bop (fun a b => a * b)
          (trainStep sqrt bn.momentum bn.eps bn.axis x st).1
          (reshape g (broadcastShapeOf x.shape bn.axis))).shape = x.shape :=
        bop_shape_bsh h1 rfl hpos
      cases hbw : bn.bias with
      | none => exact h2
      | some b =>
        show (bop (fun a b => a + b) _
          (reshape b (broadcastShapeOf x.shape bn.axis))).shape = x.shape
        exact bop_shape_bsh h2 rfl hpos
  · intro idx hidx
    have hjx : idx.getD bn.axis 0 < x.shape.getD bn.axis 0 :=
      valid_getD_lt hidx hax
    have hcore := (trainStep_output sqrt bn.momentum bn.eps bn.axis x st hwf
      hax hpos).2 idx hidx
    have h1 := (trainStep_output sqrt bn.momentum bn.eps bn.axis x st hwf
      hax hpos).1
    have hcore' : (trainStep sqrt bn.momentum bn.eps bn.axis x st).1.get idx =
        (x.get idx - bmean (idx.getD bn.axis 0)) /
          sqrt (bvar (idx.getD bn.axis 0) + bn.eps) := by
      rw [hcore, hbvar (idx.getD bn.axis 0), hbmean (idx.getD bn.axis 0)]
    unfold batchNormCall
    cases hgw : bn.weight with
    | none =>
      cases hbw : bn.bias with
      | none =>
        show (trainStep sqrt bn.momentum bn.eps bn.axis x st).1.get idx =
          (x.get idx - bmean (idx.getD bn.axis 0)) /
            sqrt (bvar (idx.getD bn.axis 0) + bn.eps) * 1 + 0
        rw [hcore']
        ring
      | some b =>
        show (bop (fun a b => a + b)
          (trainStep sqrt bn.momentum bn.eps bn.axis x st).1
          (reshape b (broadcastShapeOf x.shape bn.axis))).get idx =
          (x.get idx - bmean (idx.getD bn.axis 0)) /
            sqrt (bvar (idx.getD bn.axis 0) + bn.eps) * 1 +
            b.get [idx.getD bn.axis 0]
        rw [bop_get_bsh h1 rfl hpos hidx, hcore', reshape_bsh_get hax,
          ← get_one_dim (hb b hbw)]
        ring
    | some g =>
      have h2 : (bop (fun a b => a * b)
          (trainStep sqrt bn.momentum bn.eps bn.axis x st).1
          (reshape g (broadcastShapeOf x.shape bn.axis))).shape = x.shape :=
        bop_shape_bsh h1 rfl hpos
      have h2get : (bop (fun a b => a * b)
          (trainStep sqrt bn.momentum bn.eps bn.axis x st).1
          (reshape g (broadcastShapeOf x.shape bn.axis))).get idx =
          (x.get idx - bmean (idx.getD bn.axis 0)) /
            sqrt (bvar (idx.getD bn.axis 0) + bn.eps) *
            g.get [idx.getD bn.axis 0] := by
        rw [bop_get_bsh h1 rfl hpos hidx, hcore', reshape_bsh_get hax,
          ← get_one_dim (hw g hgw)]
      cases hbw : bn.bias with
      | none =>
        show (bop (fun a b => a * b)
          (trainStep sqrt bn.momentum bn.eps bn.axis x st).1
          (reshape g (broadcastShapeOf x.shape bn.axis))).get idx =
          (x.get idx - bmean (idx.getD bn.axis 0)) /
            sqrt (bvar (idx.getD bn.axis 0) + bn.eps) *
            g.get [idx.getD bn.axis 0] + 0
        rw [h2get]
        ring
      | some b =>
        show (bop (fun a b => a + b) (bop (fun a b => a * b)
          (trainStep sqrt bn.momentum bn.eps bn.axis x st).1
          (reshape g (broadcastShapeOf x.shape bn.axis)))
          (reshape b (broadcastShapeOf x.shape bn.axis))).get idx =
          (x.get idx - bmean (idx.getD bn.axis 0)) /
            sqrt (bvar (idx.getD bn.axis 0) + bn.eps) *
            g.get [idx.getD bn.axis 0] + b.get [idx.getD bn.axis 0]
        rw [bop_get_bsh h2 rfl hpos hidx, h2get, reshape_bsh_get hax,
          ← get_one_dim (hb b hbw)]

/-- Witness for C1 at a concrete `2 × 2` batch with feature axis 1,
momentum `1/2`, `eps = 0`, weight `[10, 100]` and bias `[5, 6]`. -/
theorem batchnorm_train_correct_witness :
    ((batchNormCall id bnExample xExample stExample).2.running_mean.shape =
        [xExample.shape.getD bnExample.axis 0] ∧
      ∀ j, j < xExample.shape.getD bnExample.axis 0 →
        (batchNormCall id bnExample xExample stExample).2.running_mean.get [j] =
          bnExample.momentum * stExample.running_mean.get [j] +
            (1 - bnExample.momentum) * bmeanExample j) ∧
    ((batchNormCall id bnExample xExample stExample).2.running_var.shape =
        [xExample.shape.getD bnExample.axis 0] ∧
      ∀ j, j < xExample.shape.getD bnExample.axis 0 →
        (batchNormCall id bnExample xExample stExample).2.running_var.get [j] =
          bnExample.momentum * stExample.running_var.get [j] +
            (1 - bnExample.momentum) * bvarExample j) ∧
    ((batchNormCall id bnExample xExample stExample).1.shape =
        xExample.shape ∧
      ∀ idx, Valid idx xExample.shape →
        (batchNormCall id bnExample xExample stExample).1.get idx =
          (xExample.get idx - bmeanExample (idx.getD bnExample.axis 0)) /
              id (bvarExample (idx.getD bnExample.axis 0) + bnExample.eps) *
            (match bnExample.weight with
             | some g => g.get [idx.getD bnExample.axis 0]
             | none => 1) +
          (match bnExample.bias with
           | some b => b.get [idx.getD bnExample.axis 0]
           | none => 0)) :=
  batchnorm_train_correct id bnExample xExample stExample bmeanExample
    bvarExample rfl (by decide) (by decide) rfl rfl rfl rfl rfl
    (by
      intro g hg
      have h2 : (⟨[2], [10, 100]⟩ : NDArray) = g := Option.some.inj hg
      rw [← h2]
      rfl)
    (by
      intro b hb
      have h2 : (⟨[2], [5, 6]⟩ : NDArray) = b := Option.some.inj hb
      rw [← h2]
      rfl)
    (fun _ => rfl) (fun _ => rfl)


theorem alpha_nodup : alpha.Nodup := by decide

theorem alpha_length : alpha.length = 52 := rfl

theorem alpha_take_split {d : ℕ} (hd : d < 52) :
    alpha.take (d + 1) = alpha.take d ++ [alpha.getD d ' '] := by
  rw [List.take_succ]
  congr 1
  have hd2 : d < alpha.length := by rw [alpha_length]; exact hd
  rw [List.getElem?_eq_getElem hd2, List.getD_eq_getElem?_getD,
    List.getElem?_eq_getElem hd2]
  rfl

theorem lookupEnv_cons (k : Char) (v : ℕ) (e : List (Char × ℕ)) (c : Char) :
    lookupEnv ((k, v) :: e) c = if k == c then v else lookupEnv e c := by
  by_cases h : (k == c) = true
  · rw [if_pos h]
    unfold lookupEnv
    rw [List.find?_cons_of_pos _ (by simpa using h)]
    rfl
  · rw [if_neg h]
    unfold lookupEnv
    rw [List.find?_cons_of_neg _ (by simpa using h)]

theorem lookupEnv_zip_skip {ks : List Char} {c : Char} (h : c ∉ ks) :
    ∀ (vs : List ℕ) (e2 : List (Char × ℕ)),
      lookupEnv (ks.zip vs ++ e2) c = lookupEnv e2 c := by
  induction ks with
  | nil => intro vs e2; cases vs <;> rfl
  | cons k ks ih =>
    intro vs e2
    cases vs with
    | nil => rfl
    | cons v vs =>
      show lookupEnv ((k, v) :: (ks.zip vs ++ e2)) c = _
      rw [lookupEnv_cons]
      rw [if_neg (by simp; intro he; exact h (by simp [he]))]
      exact ih (fun hm => h (List.mem_cons_of_mem _ hm)) vs e2

theorem lookupEnv_zip_getElem {ks : List Char} (hnd : ks.Nodup) :
    ∀ (vs : List ℕ) (e2 : List (Char × ℕ)) (k : ℕ) (h1 : k < ks.length)
      (h2 : k < vs.length),
      lookupEnv (ks.zip vs ++ e2) ks[k] = vs[k] := by
  induction ks with
  | nil => intro vs e2 k h1 h2; exact absurd h1 (by simp)
  | cons a ks ih =>
    intro vs e2 k h1 h2
    cases vs with
    | nil => exact absurd h2 (by simp)
    | cons v vs =>
      show lookupEnv ((a, v) :: (ks.zip vs ++ e2)) (a :: ks)[k] = _
      cases k with
      | zero => rw [lookupEnv_cons]; simp
      | succ k =>
        rw [lookupEnv_cons]
        have hmem : (a :: ks)[k + 1] ∈ ks := by
          simp only [List.getElem_cons_succ]
          exact List.getElem_mem (by simpa using h1)
        rw [if_neg (by
          simp only [beq_iff_eq]
          intro he
          rw [he] at hnd
          exact (List.nodup_cons.mp hnd).1 hmem)]
        simp only [List.getElem_cons_succ] at *
        exact ih (List.nodup_cons.mp hnd).2 vs e2 k (by simpa using h1)
          (by simpa using h2)

theorem collect_stable (oLs : List Char) :
    ∀ (M acc : List Char),
      (∀ c ∈ M, acc.contains c = true ∨ oLs.contains c = true) →
      M.foldl (fun acc c => if acc.contains c || oLs.contains c then acc
        else acc ++ [c]) acc = acc := by
  intro M
  induction M with
  | nil => intro acc _; rfl
  | cons c M ih =>
    intro acc h
    have hc := h c (List.mem_cons_self c M)
    show List.foldl _ (if acc.contains c || oLs.contains c then acc
      else acc ++ [c]) M = acc
    rw [if_pos (by rcases hc with h1 | h1 <;> rw [h1] <;> simp)]
    exact ih acc (fun x hx => h x (List.mem_cons_of_mem c hx))

theorem collect_fresh (oLs : List Char) :
    ∀ (M acc : List Char), M.Nodup →
      (∀ c ∈ M, acc.contains c = false ∧ oLs.contains c = false) →
      M.foldl (fun acc c => if acc.contains c || oLs.contains c then acc
        else acc ++ [c]) acc = acc ++ M := by
  intro M
  induction M with
  | nil => intro acc _ _; simp
  | cons c M ih =>
    intro acc hnd h
    have hc := h c (List.mem_cons_self c M)
    show List.foldl _ (if acc.contains c || oLs.contains c then acc
      else acc ++ [c]) M = acc ++ c :: M
    rw [if_neg (by rw [hc.1, hc.2]; simp)]
    rw [ih (acc ++ [c]) (List.nodup_cons.mp hnd).2 (fun x hx => by
      constructor
      · have hne : x ≠ c := fun he =>
          (List.nodup_cons.mp hnd).1 (he ▸ hx)
        have hna := (h x (List.mem_cons_of_mem c hx)).1
        rw [Bool.eq_false_iff]
        intro hcon
        rcases List.mem_append.mp (List.elem_iff.mp hcon) with hm | hm
        · rw [Bool.eq_false_iff] at hna
          exact hna (List.elem_iff.mpr hm)
        · exact hne (by simpa using hm)
      · exact (h x (List.mem_cons_of_mem c hx)).2)]
    simp

theorem env_inputs (batch : List ℕ) :
    ∀ (L : List Char) (xs : List NDArray) (ns : List ℕ),
      List.Forall₂ (fun x n => x.shape = batch ++ [n]) xs ns →
      L.length = xs.length →
      ((L.map (fun c => ((true : Bool), [c]))).zip xs).flatMap
        (fun pr => pr.1.2.zip (operandLabelDims pr.1.1 pr.1.2 pr.2.shape)) =
        L.zip ns := by
  intro L
  induction L with
  | nil => intro xs ns _ _; rfl
  | cons c L ih =>
    intro xs ns hsh hlen
    cases xs with
    | nil => exact absurd hlen (by simp)
    | cons x xs =>
      cases ns with
      | nil => exact absurd hsh (by intro h; cases h)
      | cons n ns =>
        have hx : x.shape = batch ++ [n] := by
          cases hsh; assumption
        have hsh2 : List.Forall₂ (fun x n => x.shape = batch ++ [n]) xs ns := by
          cases hsh; assumption
        have hdims : operandLabelDims true [c] x.shape = [n] := by
          unfold operandLabelDims
          rw [if_pos rfl, hx]
          have h9 : (batch ++ [n]).length - List.length [c] = batch.length := by
            simp
          rw [h9, List.drop_left]
        simp only [List.map_cons, List.zip_cons_cons, List.flatMap_cons]
        rw [ih xs ns hsh2 (by simpa using hlen)]
        show [c].zip (operandLabelDims true [c] x.shape) ++ L.zip ns = _
        rw [hdims]
        rfl

theorem labels_inputs :
    ∀ (L : List Char) (xs : List NDArray), L.length = xs.length →
      ((L.map (fun c => ((true : Bool), [c]))).zip xs).flatMap
        (fun pr => pr.1.2) = L := by
  intro L
  induction L with
  | nil => intro xs _; rfl
  | cons c L ih =>
    intro xs hlen
    cases xs with
    | nil => exact absurd hlen (by simp)
    | cons x xs =>
      show c :: ((L.map _).zip xs).flatMap _ = c :: L
      rw [ih xs (by simpa using hlen)]

theorem batch_inputs (batch : List ℕ) :
    ∀ (L : List Char) (xs : List NDArray) (ns : List ℕ),
      List.Forall₂ (fun x n => x.shape = batch ++ [n]) xs ns →
      L.length = xs.length →
      ((L.map (fun c => ((true : Bool), [c]))).zip xs).filterMap
        (fun pr => if pr.1.1 then some (operandBatch pr.1.2 pr.2.shape)
          else none) = L.map (fun _ => batch) := by
  intro L
  induction L with
  | nil => intro xs ns _ _; rfl
  | cons c L ih =>
    intro xs ns hsh hlen
    cases xs with
    | nil => exact absurd hlen (by simp)
    | cons x xs =>
      cases ns with
      | nil => exact absurd hsh (by intro h; cases h)
      | cons n ns =>
        have hx : x.shape = batch ++ [n] := by
          cases hsh; assumption
        have hsh2 : List.Forall₂ (fun x n => x.shape = batch ++ [n]) xs ns := by
          cases hsh; assumption
        have hb : operandBatch [c] x.shape = batch := by
          unfold operandBatch
          rw [hx]
          have h9 : (batch ++ [n]).length - List.length [c] = batch.length := by
            simp
          rw [h9, List.take_left]
        simp only [List.map_cons, List.zip_cons_cons, List.filterMap_cons]
        rw [ih xs ns hsh2 (by simpa using hlen)]
        show operandBatch [c] x.shape :: L.map (fun _ => batch) = _
        rw [hb]

theorem opvals_inputs (env2 : List (Char × ℕ)) (b : Idx) :
    ∀ (L : List Char) (xs : List NDArray), L.length = xs.length →
      ((L.map (fun c => ((true : Bool), [c]))).zip xs).map
        (fun pr => pr.2.get ((if pr.1.1 then b else []) ++
          pr.1.2.map (lookupEnv env2))) =
      List.zipWith (fun x c => x.get (b ++ [lookupEnv env2 c])) xs L := by
  intro L
  induction L with
  | nil => intro xs _; simp
  | cons c L ih =>
    intro xs hlen
    cases xs with
    | nil => exact absurd hlen (by simp)
    | cons x xs =>
      simp only [List.map_cons, List.zip_cons_cons, List.zipWith_cons_cons]
      rw [ih xs (by simpa using hlen)]
      rfl

theorem valid_append_last {b : Idx} {batch : List ℕ} {o p : ℕ}
    (hb : Valid b batch) (ho : o < p) : Valid (b ++ [o]) (batch ++ [p]) := by
  have h2 : Valid [o] [p] := List.forall₂_cons.mpr ⟨ho, List.Forall₂.nil⟩
  induction hb with
  | nil => exact h2
  | cons hr _ ih => exact List.Forall₂.cons hr ih

theorem bshape_last {batch : List ℕ} {p : ℕ} (hpos : ∀ n ∈ batch, 0 < n) :
    bshape (batch ++ [p]) [p] = batch ++ [p] := by
  simp only [bshape, List.length_append, List.length_cons, List.length_nil]
  have hm : max (batch.length + 1) (0 + 1) = batch.length + 1 := by omega
  rw [hm]
  have h1 : batch.length + 1 - (batch.length + 1) = 0 := by omega
  have h2 : batch.length + 1 - (0 + 1) = batch.length := by omega
  rw [h1, h2, List.replicate_zero, List.nil_append]
  apply List.ext_getElem
  · simp
  · intro k hk1 hk2
    rw [List.getElem_zipWith]
    simp only [List.length_append, List.length_cons, List.length_nil] at hk2
    by_cases hkb : k < batch.length
    · rw [List.getElem_append_left hkb,
        List.getElem_append_left (by simpa using hkb),
        List.getElem_replicate]
      have := hpos batch[k] (List.getElem_mem hkb)
      omega
    · have hke : k = batch.length := by omega
      subst hke
      rw [List.getElem_append_right (le_refl _),
        List.getElem_append_right (by simp)]
      simp

theorem bcast_last {bb : NDArray} {batch : List ℕ} {p : ℕ} {idx : Idx}
    (hb : bb.shape = [p]) (h : Valid idx (batch ++ [p])) :
    bcastGet bb (batch.length + 1) idx = bb.get [idx.getD batch.length 0] := by
  unfold bcastGet
  rw [hb]
  have hlen : idx.length = batch.length + 1 := by
    have := (valid_iff_get.mp h).1
    simpa using this
  have hkb : batch.length < idx.length := by omega
  have hgd : idx.getD batch.length 0 = idx[batch.length] := by
    rw [List.getD_eq_getElem?_getD, List.getElem?_eq_getElem hkb]
    rfl
  have hdrop : idx.drop (batch.length + 1 - List.length [p]) =
      [idx[batch.length]] := by
    have h0 : batch.length + 1 - List.length [p] = batch.length := by simp
    rw [h0, List.drop_eq_getElem_cons hkb]
    have : idx.drop (batch.length + 1) = [] := by
      apply List.drop_eq_nil_of_le
      omega
    rw [this]
  rw [hdrop]
  have hvlt : idx.getD batch.length 0 < p := by
    have h5 : List.getD idx batch.length 0 <
        List.getD (batch ++ [p]) batch.length 0 :=
      valid_getD_lt h (by simp)
    have h6 : List.getD (batch ++ [p]) batch.length 0 = p := by simp
    rw [h6] at h5
    exact h5
  show bb.get [if p = 1 then 0 else idx[batch.length]] = _
  rw [hgd]
  by_cases hp : p = 1
  · rw [if_pos hp]
    have : idx[batch.length] = 0 := by rw [← hgd]; omega
    rw [this]
  · rw [if_neg hp]

theorem bop_last_shape {f : ℚ → ℚ → ℚ} {y bb : NDArray} {batch : List ℕ}
    {p : ℕ} (hy : y.shape = batch ++ [p]) (hb : bb.shape = [p])
    (hpos : ∀ n ∈ batch, 0 < n) :
    (bop f y bb).shape = batch ++ [p] := by
  show bshape y.shape bb.shape = batch ++ [p]
  rw [hy, hb, bshape_last hpos]

theorem bop_last_get {f : ℚ → ℚ → ℚ} {y bb : NDArray} {batch : List ℕ}
    {p : ℕ} {idx : Idx} (hy : y.shape = batch ++ [p]) (hb : bb.shape = [p])
    (hpos : ∀ n ∈ batch, 0 < n) (h : Valid idx (batch ++ [p])) :
    (bop f y bb).get idx = f (y.get idx) (bb.get [idx.getD batch.length 0]) := by
  unfold bop
  have hsh : bshape y.shape bb.shape = batch ++ [p] := by
    rw [hy, hb, bshape_last hpos]
  rw [hsh]
  have hrk : (batch ++ [p]).length = batch.length + 1 := by simp
  rw [ofFn_get h, hrk, ← hrk, bcast_same hy h, hrk, bcast_last hb h]

theorem valid_append_last_inv {idx : Idx} {batch : List ℕ} {p : ℕ}
    (h : Valid idx (batch ++ [p])) :
    ∃ b o, idx = b ++ [o] ∧ Valid b batch ∧ o < p := by
  induction batch generalizing idx with
  | nil =>
    cases idx with
    | nil => cases h
    | cons i idx =>
      have h1 := List.forall₂_cons.mp h
      cases idx with
      | nil => exact ⟨[], i, rfl, List.Forall₂.nil, h1.1⟩
      | cons j idx => cases h1.2
  | cons m batch ih =>
    cases idx with
    | nil => cases h
    | cons i idx =>
      have h1 := List.forall₂_cons.mp h
      obtain ⟨b, o, he, hv, ho⟩ := ih h1.2
      exact ⟨i :: b, o, by rw [he]; rfl, List.forall₂_cons.mpr ⟨h1.1, hv⟩, ho⟩

theorem einsum_mkSpec_sem (d : ℕ) (hd : 1 ≤ d) (hd52 : d < 52)
    (batch ns : List ℕ) (p : ℕ) (xs : List NDArray) (w : NDArray)
    (hns : ns.length = d) (hxs : xs.length = d)
    (hsh : List.Forall₂ (fun x n => x.shape = batch ++ [n]) xs ns)
    (hw : w.shape = ns ++ [p]) :
    einsumEval (mkSpec d) (xs ++ [w]) =
      ofFn (batch ++ [p]) (fun idx =>
        ((allIdx ns).map (fun a =>
          (List.zipWith (fun x ai => x.get (idx.take batch.length ++ [ai]))
            xs a).prod *
            w.get (a ++ [idx.getD batch.length 0]))).sum) := by
  have hL : (alpha.take d).length = d := by
    rw [List.length_take, alpha_length]
    omega
  have hLxs : (alpha.take d).length = xs.length := by rw [hL, hxs]
  have hsplit : alpha.take (d + 1) = alpha.take d ++ [alpha.getD d ' '] :=
    alpha_take_split hd52
  have hndTake : (alpha.take (d + 1)).Nodup :=
    (List.take_sublist (d + 1) alpha).nodup alpha_nodup
  rw [hsplit] at hndTake
  obtain ⟨hnd, _, hdisj⟩ := List.nodup_append.mp hndTake
  have hz : alpha.getD d ' ' ∉ alpha.take d := by
    intro hmem
    exact hdisj hmem (List.mem_singleton_self _)
  have hpairs : (((alpha.take d).map (fun c => ((true : Bool), [c])) ++
      [((false : Bool), alpha.take (d + 1))]).zip (xs ++ [w])) =
      ((alpha.take d).map (fun c => ((true : Bool), [c]))).zip xs ++
        [(((false : Bool), alpha.take (d + 1)), w)] := by
    rw [List.zip_append (by rw [List.length_map, hL, hxs])]
    rfl
  have hbatchv :
      (List.filterMap (fun pr =>
          if pr.1.1 then some (operandBatch pr.1.2 pr.2.shape) else none)
        (((alpha.take d).map (fun c => ((true : Bool), [c]))).zip xs ++
          [(((false : Bool), alpha.take (d + 1)), w)])).headD [] = batch := by
    rw [List.filterMap_append, batch_inputs batch (alpha.take d) xs ns hsh hLxs]
    show ((alpha.take d).map (fun _ => batch) ++ []).headD [] = batch
    rw [List.append_nil]
    obtain ⟨c, Lt, hc⟩ : ∃ c Lt, alpha.take d = c :: Lt := by
      cases hcase : alpha.take d with
      | nil => rw [hcase] at hL; simp at hL; omega
      | cons c Lt => exact ⟨c, Lt, rfl⟩
    rw [hc]
    rfl
  have henv : (((alpha.take d).map (fun c => ((true : Bool), [c]))).zip xs ++
        [(((false : Bool), alpha.take (d + 1)), w)]).flatMap
        (fun pr => pr.1.2.zip (operandLabelDims pr.1.1 pr.1.2 pr.2.shape)) =
      (alpha.take d).zip ns ++
        (alpha.take d ++ [alpha.getD d ' ']).zip (ns ++ [p]) := by
    rw [List.flatMap_append, env_inputs batch (alpha.take d) xs ns hsh hLxs]
    congr 1
    show (alpha.take (d + 1)).zip w.shape ++ [] = _
    rw [List.append_nil, hw, hsplit]
  have hlabels : (((alpha.take d).map (fun c => ((true : Bool), [c]))).zip xs ++
        [(((false : Bool), alpha.take (d + 1)), w)]).flatMap
        (fun pr => pr.1.2) =
      alpha.take d ++ (alpha.take d ++ [alpha.getD d ' ']) := by
    rw [List.flatMap_append, labels_inputs (alpha.take d) xs hLxs]
    congr 1
    show alpha.take (d + 1) ++ [] = _
    rw [List.append_nil, hsplit]
  have hsum : (alpha.take d ++ (alpha.take d ++ [alpha.getD d ' '])).foldl
      (fun acc c => if acc.contains c || [alpha.getD d ' '].contains c then acc
        else acc ++ [c]) [] = alpha.take d := by
    rw [List.foldl_append]
    have h1 := collect_fresh [alpha.getD d ' '] (alpha.take d) [] hnd
      (fun c hc => ⟨rfl, by
        rw [Bool.eq_false_iff]
        intro hcon
        have hcz : c = alpha.getD d ' ' := by simpa using hcon
        exact hz (hcz ▸ hc)⟩)
    rw [h1, List.nil_append]
    exact collect_stable [alpha.getD d ' ']
      (alpha.take d ++ [alpha.getD d ' ']) (alpha.take d)
      (fun c hc => by
        rcases List.mem_append.mp hc with hm | hm
        · left
          exact List.elem_iff.mpr hm
        · right
          exact List.elem_iff.mpr hm)
  have hlookz : lookupEnv ((alpha.take d).zip ns ++
      (alpha.take d ++ [alpha.getD d ' ']).zip (ns ++ [p]))
      (alpha.getD d ' ') = p := by
    rw [lookupEnv_zip_skip hz ns _]
    rw [List.zip_append (by rw [hL, hns])]
    rw [lookupEnv_zip_skip hz ns _]
    show lookupEnv ((alpha.getD d ' ', p) :: []) (alpha.getD d ' ') = p
    rw [lookupEnv_cons, if_pos (by simp)]
  have houtmap : [alpha.getD d ' '].map (lookupEnv ((alpha.take d).zip ns ++
      (alpha.take d ++ [alpha.getD d ' ']).zip (ns ++ [p]))) = [p] := by
    show [lookupEnv _ (alpha.getD d ' ')] = [p]
    rw [hlookz]
  have hsummap : (alpha.take d).map (lookupEnv ((alpha.take d).zip ns ++
      (alpha.take d ++ [alpha.getD d ' ']).zip (ns ++ [p]))) = ns := by
    apply List.ext_getElem
    · rw [List.length_map, hL, hns]
    · intro k hk1 hk2
      rw [List.getElem_map]
      rw [List.length_map] at hk1
      exact lookupEnv_zip_getElem hnd ns _ k hk1 (by rw [hns]; rw [hL] at hk1; omega)
  unfold einsumEval
  dsimp only [mkSpec]
  simp only [hpairs, hbatchv, henv, hlabels, hsum, houtmap, hsummap,
    eq_self_iff_true, if_true]
  refine ofFn_ext rfl (fun idx hvalid => ?_)
  obtain ⟨b, o, rfl, hvb, ho⟩ := valid_append_last_inv hvalid
  have hbl : b.length = batch.length := (valid_iff_get.mp hvb).1
  have htake : (b ++ [o]).take batch.length = b := by
    rw [← hbl, List.take_left]
  have hdropb : (b ++ [o]).drop batch.length = [o] := by
    rw [← hbl, List.drop_left]
  have hgetD : (b ++ [o]).getD batch.length 0 = o := by
    rw [← hbl]
    simp
  simp only [htake, hdropb, hgetD]
  refine congrArg List.sum (List.map_congr_left (fun a hmem => ?_))
  have hva : Valid a ns := mem_allIdx.mp hmem
  have hal : a.length = d := by rw [(valid_iff_get.mp hva).1, hns]
  rw [List.map_append, opvals_inputs ([alpha.getD d ' '].zip [o] ++
    (alpha.take d).zip a) b (alpha.take d) xs hLxs]
  have hmapA : (alpha.take d).map (lookupEnv ([alpha.getD d ' '].zip [o] ++
      (alpha.take d).zip a)) = a := by
    apply List.ext_getElem
    · rw [List.length_map, hL, hal]
    · intro k hk1 hk2
      rw [List.getElem_map]
      rw [List.length_map] at hk1
      show lookupEnv ((alpha.getD d ' ', o) :: (alpha.take d).zip a) _ = _
      rw [lookupEnv_cons, if_neg (by
        simp only [beq_iff_eq]
        intro he
        exact hz (he ▸ List.getElem_mem hk1))]
      have h9 := lookupEnv_zip_getElem hnd a [] k hk1 hk2
      rwa [List.append_nil] at h9
  have hlookZ : lookupEnv ([alpha.getD d ' '].zip [o] ++
      (alpha.take d).zip a) (alpha.getD d ' ') = o := by
    show lookupEnv ((alpha.getD d ' ', o) :: (alpha.take d).zip a) _ = _
    rw [lookupEnv_cons, if_pos (by simp)]
  have hzipe : List.zipWith (fun x c => x.get (b ++
      [lookupEnv ([alpha.getD d ' '].zip [o] ++ (alpha.take d).zip a) c]))
      xs (alpha.take d) =
      List.zipWith (fun x ai => x.get (b ++ [ai])) xs a := by
    apply List.ext_getElem
    · rw [List.length_zipWith, List.length_zipWith, hL, hal]
    · intro k hk1 hk2
      rw [List.length_zipWith, hL] at hk1
      rw [List.getElem_zipWith, List.getElem_zipWith]
      have hkL : k < (alpha.take d).length := by rw [hL]; omega
      have hka : k < a.length := by rw [hal]; omega
      have h9 : lookupEnv ([alpha.getD d ' '].zip [o] ++
          (alpha.take d).zip a) (alpha.take d)[k] = a[k] := by
        show lookupEnv ((alpha.getD d ' ', o) :: (alpha.take d).zip a) _ = _
        rw [lookupEnv_cons, if_neg (by
          simp only [beq_iff_eq]
          intro he
          exact hz (he ▸ List.getElem_mem hkL))]
        have h8 := lookupEnv_zip_getElem hnd a [] k hkL hka
        rwa [List.append_nil] at h8
      rw [h9]
  rw [hzipe]
  have hwv : List.map (fun pr => pr.2.get ((if pr.1.1 then b else []) ++
      pr.1.2.map (lookupEnv ([alpha.getD d ' '].zip [o] ++
        (alpha.take d).zip a))))
      [(((false : Bool), alpha.take (d + 1)), w)] = [w.get (a ++ [o])] := by
    show [w.get (([] : Idx) ++ (alpha.take (d + 1)).map
      (lookupEnv ([alpha.getD d ' '].zip [o] ++ (alpha.take d).zip a)))] = _
    rw [List.nil_append, hsplit, List.map_append, hmapA]
    show [w.get (a ++ [lookupEnv ([alpha.getD d ' '].zip [o] ++
      (alpha.take d).zip a) (alpha.getD d ' ')])] = _
    rw [hlookZ]
  rw [hwv, List.prod_append, List.prod_singleton]

set_option maxRecDepth 8000 in
theorem parse_gen : ∀ d, d < 52 → 1 ≤ d →
    (multilinearEinsumChars d).bind parseEinsum = some (mkSpec d) := by
  decide

/-- C4: for a `Multilinear` layer whose `in_features` tuple has length
`d` with `1 ≤ d ≤ 51`, calling the layer on `d` inputs that share a
common (positive) batch shape and whose last axes have sizes
`in_features`, the einsum string generated for degree `d` makes the
output satisfy `y[..., o] = Σ_a x_1[..., a_1] ⋯ x_d[..., a_d] ·
weight[a_1, ..., a_d, o]`, plus `bias[o]` when the bias is present. -/
theorem multilinear_einsum_correct (in_features : List ℕ) (w : NDArray)
    (bias : Option NDArray) (xs : List NDArray) (batch : List ℕ) (p : ℕ)
    (hd : 1 ≤ in_features.length) (hd2 : in_features.length ≤ 51)
    (hpos : ∀ n ∈ batch, 0 < n)
    (hsh : List.Forall₂ (fun x n => x.shape = batch ++ [n]) xs in_features)
    (hw : w.shape = in_features ++ [p])
    (hbias : ∀ bb, bias = some bb → bb.shape = [p]) :
    ∃ y, multilinearCall in_features w bias xs = some y ∧
      y.shape = batch ++ [p] ∧
      ∀ b o, Valid b batch → o < p →
        y.get (b ++ [o]) =
          ((allIdx in_features).map (fun a =>
            (List.zipWith (fun x ai => x.get (b ++ [ai])) xs a).prod *
              w.get (a ++ [o]))).sum +
          (match bias with
           | some bb => bb.get [o]
           | none => 0) := by
  have hd52 : in_features.length < 52 := by omega
  have hparse := parse_gen in_features.length hd52 hd
  obtain ⟨str, hgen, hpar⟩ := Option.bind_eq_some.mp hparse
  have hsem := einsum_mkSpec_sem in_features.length hd hd52 batch
    in_features p xs w rfl hsh.length_eq hsh hw
  have hy0sh : (einsumEval (mkSpec in_features.length) (xs ++ [w])).shape =
      batch ++ [p] := by
    rw [hsem]
    rfl
  unfold multilinearCall
  rw [hgen]
  simp only [hpar]
  cases bias with
  | none =>
    refine ⟨einsumEval (mkSpec in_features.length) (xs ++ [w]), rfl,
      hy0sh, ?_⟩
    intro b o hvb ho
    have hbl : b.length = batch.length := (valid_iff_get.mp hvb).1
    have htake : (b ++ [o]).take batch.length = b := by
      rw [← hbl, List.take_left]
    have hgetD : (b ++ [o]).getD batch.length 0 = o := by
      rw [← hbl]
      simp
    rw [hsem, ofFn_get (valid_append_last hvb ho)]
    simp only [htake, hgetD]
    exact (add_zero _).symm
  | some bb =>
    have hbb : bb.shape = [p] := hbias bb rfl
    refine ⟨bop (fun a b => a + b)
      (einsumEval (mkSpec in_features.length) (xs ++ [w])) bb, rfl, ?_, ?_⟩
    · exact bop_last_shape hy0sh hbb hpos
    · intro b o hvb ho
      have hbl : b.length = batch.length := (valid_iff_get.mp hvb).1
      have htake : (b ++ [o]).take batch.length = b := by
        rw [← hbl, List.take_left]
      have hgetD : (b ++ [o]).getD batch.length 0 = o := by
        rw [← hbl]
        simp
      rw [bop_last_get hy0sh hbb hpos (valid_append_last hvb ho), hgetD]
      rw [hsem, ofFn_get (valid_append_last hvb ho)]
      simp only [htake, hgetD]

theorem multilinear_einsum_correct_witness :
    ∃ y, multilinearCall [2, 3] ⟨[2, 3, 4], [1, 0, 0, 0, 0, 1, 0, 0, 0, 0,
        1, 0, 0, 0, 0, 1, 1, 1, 0, 0, 0, 0, 1, 1]⟩
      (some ⟨[4], [10, 20, 30, 40]⟩)
      [⟨[1, 2], [1, 2]⟩, ⟨[1, 3], [1, 5, 7]⟩] = some y ∧
      y.shape = [1] ++ [4] ∧
      ∀ b o, Valid b [1] → o < 4 →
        y.get (b ++ [o]) =
          ((allIdx [2, 3]).map (fun a =>
            (List.zipWith (fun x ai => x.get (b ++ [ai]))
              [(⟨[1, 2], [1, 2]⟩ : NDArray), ⟨[1, 3], [1, 5, 7]⟩] a).prod *
              NDArray.get ⟨[2, 3, 4], [1, 0, 0, 0, 0, 1, 0, 0, 0, 0, 1, 0,
                0, 0, 0, 1, 1, 1, 0, 0, 0, 0, 1, 1]⟩ (a ++ [o]))).sum +
          (match some (⟨[4], [10, 20, 30, 40]⟩ : NDArray) with
           | some bb => bb.get [o]
           | none => 0) :=
  multilinear_einsum_correct [2, 3] ⟨[2, 3, 4], [1, 0, 0, 0, 0, 1, 0, 0, 0,
      0, 1, 0, 0, 0, 0, 1, 1, 1, 0, 0, 0, 0, 1, 1]⟩
    (some ⟨[4], [10, 20, 30, 40]⟩)
    [⟨[1, 2], [1, 2]⟩, ⟨[1, 3], [1, 5, 7]⟩] [1] 4
    (by decide) (by decide) (by decide)
    (List.Forall₂.cons rfl (List.Forall₂.cons rfl List.Forall₂.nil))
    rfl
    (by
      intro bb hbb
      have h2 : (⟨[4], [10, 20, 30, 40]⟩ : NDArray) = bb := Option.some.inj hbb
      rw [← h2])

end Serket

